import Mathlib

/-!
# byzantPIR: a Byzantine-robust private information retrieval scheme

A shallow embedding of `tools/Function.go`, `tools/utils.go` and the retrieval
step of `main.go`, and the properties of the protocol core.

Conventions of the embedding.

* `*big.Int` is `Int`; Go `int` values that are only used as lengths and loop
  indices are `Nat`, and `Int` where the sign matters to a guard.
* A Go panic (index out of range, division by zero, an explicit `panic`) is
  `none`; a function that may panic returns an `Option`.
* Random draws are explicit: a function such as `r : Nat → Int` gives the
  outcome of the `j`-th call of the random source.
* `float64` matrix algebra (gonum `mat.Dense`, `mat.VecDense`) is taken over an
  exact ordered field `K`; the definitions run at `K = ℚ`.
-/

namespace ByzantPIR

/-! ## Query generation, server response and response combination -/

/-- The unit vector `e` of `GenQuery` (Function.go 194-198): `m` zeros, then
`e[i] = 1`. -/
def unitVec (m i : Nat) : List Int :=
  (List.replicate m (0 : Int)).set i 1

/-- `GenQuery` (Function.go 192-219). `r j` is the outcome of the `j`-th call
`mRand.Intn(10)`. `make` panics on a negative length and `e[i] = ...` panics
when `i` is out of range. -/
def GenQuery (a b m i : Int) (r : Nat → Int) : Option (List Int × List Int) :=
  if m < 0 then none
  else if i < 0 ∨ m ≤ i then none
  else
    let e := unitVec m.toNat i.toNat
    let rv := (List.range m.toNat).map r
    let q1 := rv.map (fun rj => a * rj)
    let q2 := List.zipWith (fun q1j ej => q1j + b * ej) q1 e
    some (q1, q2)

/-- The accumulator of an inner-product loop of `GenRespond` after `n`
iterations: `acc.Add(acc, Y[i] * Q[i])` for `i = 0 .. n-1`; an index out of
range panics. -/
def innerLoop (Y Q : List Int) : Nat → Option Int
  | 0 => some 0
  | n + 1 => do
    let acc ← innerLoop Y Q n
    let y ← Y[n]?
    let q ← Q[n]?
    some (acc + y * q)

/-- `GenRespond` (Function.go 222-238): the two inner products of the share row
with the query pair, each loop running over `len(Y)`. -/
def GenRespond (Y : List Int) (Q : List Int × List Int) : Option (Int × Int) := do
  let a1 ← innerLoop Y Q.1 Y.length
  let a2 ← innerLoop Y Q.2 Y.length
  some (a1, a2)

/-- `CalRespond` (Function.go 241-249): `result.Div(a2 - a1, b)`. `big.Int.Div`
is Euclidean division and panics on a zero divisor; `/` on `Int` is Euclidean
division. -/
def CalRespond (b : Int) (A : Int × Int) : Option Int :=
  let diff := A.2 - A.1
  if b = 0 then none else some (diff / b)

/-! ## Commitments, fault injection and verification -/

/-- The slice filled by a loop `for i := 0; i < n; i++ { out[i] = f(i) }` after
`n` iterations; the loop panics as soon as one `f(i)` panics. -/
def fillLoop {α : Type} (f : Nat → Option α) : Nat → Option (List α)
  | 0 => some []
  | n + 1 => do
    let acc ← fillLoop f n
    let x ← f n
    some (acc ++ [x])

/-- Modelled from the spec: `Int.Bytes` of `math/big` is not part of the
sources; the bytes that `Gethash` hashes are the big-endian magnitude of the
value (the sign is dropped, zero gives the empty slice). -/
def Bytes (x : Int) : List Nat :=
  (Nat.digits 256 x.natAbs).reverse

/-- `Gethash` (Function.go 151-161): the hex digest of the SHA-256 of
`value.Bytes()`. The library digest `sha`, bytes to hex string, is a parameter. -/
def Gethash (sha : List Nat → String) (value : Int) : String :=
  sha (Bytes value)

/-- `GenHashVec` (Function.go 164-171): the hash of every entry. -/
def GenHashVec (sha : List Nat → String) (Y : List Int) : List String :=
  Y.map (Gethash sha)

/-- `GenHashMat` (Function.go 175-189): `nil` for an empty table, otherwise the
hashes of the first `m = len(Y[0])` entries of every row; a shorter row panics. -/
def GenHashMat (sha : List Nat → String) (Y : List (List Int)) : Option (List (List String)) :=
  match Y with
  | [] => some []
  | row0 :: _ =>
    fillLoop (fun i => do
      let row ← Y[i]?
      fillLoop (fun j => (row[j]?).map (Gethash sha)) row0.length) Y.length

/-- `GetColumn` (utils.go 56-66): `column[i] = matrix[i][colIndex]`. -/
def GetColumn (matrix : List (List String)) (colIndex : Nat) : Option (List String) :=
  fillLoop (fun i => do
    let row ← matrix[i]?
    row[colIndex]?) matrix.length

/-- `GetColumnFromS` (utils.go 68-78): `column[i] = matrix[i][colIndex]`. -/
def GetColumnFromS (matrix : List (List Int)) (colIndex : Nat) : Option (List Int) :=
  fillLoop (fun i => do
    let row ← matrix[i]?
    row[colIndex]?) matrix.length

/-- `AddError` (Function.go 388-397): every index of `Byzant` that lies in
`0 .. len(Y)-1` has its entry set to `-1`. The Go function overwrites `Y` in
place and returns it; here the argument is the vector before the call and the
result the vector after it. -/
def AddError (Byzant : List Int) (Y : List Int) : List Int :=
  Byzant.foldl (fun (Y : List Int) (index : Int) =>
    if 0 ≤ index ∧ index < (Y.length : Int) then Y.set index.toNat (-1) else Y) Y

/-- The state `(count, ByzantServer, HonestServer)` of the loop of `Verify`
after `n` iterations. -/
def verifyLoop (sha : List Nat → String) (Y : List Int) (H : List String) :
    Nat → Option (Nat × List Nat × List Nat)
  | 0 => some (0, [], [])
  | i + 1 => do
    let st ← verifyLoop sha Y H i
    let yh ← (GenHashVec sha Y)[i]?
    let h ← H[i]?
    if yh ≠ h then some (st.1 + 1, st.2.1 ++ [i], st.2.2)
    else some (st.1, st.2.1, st.2.2 ++ [i])

/-- `Verify` (Function.go 252-269). -/
def Verify (sha : List Nat → String) (Y : List Int) (H : List String) :
    Option (Nat × List Nat × List Nat) :=
  verifyLoop sha Y H Y.length

/-! ## Encoding and distribution -/

/-- The accumulator of a summation loop `sum.Add(sum, f(k))` for
`k = 0 .. n-1` after `n` iterations; the loop panics as soon as one `f(k)`
panics. -/
def sumLoop (f : Nat → Option Int) : Nat → Option Int
  | 0 => some 0
  | n + 1 => do
    let acc ← sumLoop f n
    let x ← f n
    some (acc + x)

/-- `MatrixMultiplyBigInt` (utils.go 24-53): `m = len(A)`, `n = len(A[0])`,
`p = len(B[0])`, and `C[i][j]` is the sum over `k < n` of `A[i][k] * B[k][j]`.
`A[0]` and `B[0]` panic on an empty slice, and so does every index out of
range in the loops. -/
def MatrixMultiplyBigInt (A B : List (List Int)) : Option (List (List Int)) := do
  let m := A.length
  let A0 ← A[0]?
  let n := A0.length
  let B0 ← B[0]?
  let p := B0.length
  fillLoop (fun i => fillLoop (fun j => sumLoop (fun k => do
    let Ai ← A[i]?
    let a ← Ai[k]?
    let Bk ← B[k]?
    let b ← Bk[j]?
    some (a * b)) n) p) m

/-- `DistributeFile` (Function.go 135-148): server `i` gets a copy of row `i`. -/
def DistributeFile (Y : List (List Int)) : List (List Int) :=
  Y.map fun row => row.map fun y => y

/-! ## Dense matrices over an exact field

`mat.Dense` is a row count, a column count and the entries; `At i j` is
meaningful for `i < rows` and `j < cols`, and every function below that can be
handed an index out of range checks it, as the library does, and fails.
`mat.VecDense` and `[]float64` are lists. Allocation (`mat.NewDense`,
`mat.NewVecDense`) panics on a dimension that is zero or negative. -/

/-- A gonum `mat.Dense`: dimensions and entries. -/
structure Dense (K : Type) where
  rows : Nat
  cols : Nat
  At : Nat → Nat → K

section Field

variable {K : Type} [LinearOrderedField K]

/-- Modelled from the spec: the constructor `mat.NewDense(r, c, data)` of gonum
is not part of the sources. It gives the `r × c` matrix of the given entries; a
bad dimension, zero or negative, is a fatal precondition violation (a panic). -/
def NewDense (r c : Int) (data : Nat → Nat → K) : Option (Dense K) :=
  if r ≤ 0 ∨ c ≤ 0 then none else some ⟨r.toNat, c.toNat, data⟩

/-- Modelled from the spec: the constructor `mat.NewVecDense(n, data)` of gonum
is not part of the sources. It gives the vector of the given `n` entries; a bad
dimension, zero or negative, is a fatal precondition violation (a panic). -/
def NewVecDense (n : Int) (data : List K) : Option (List K) :=
  if n ≤ 0 then none else some data

/-- `pow` (Function.go 76-83): `result *= base`, `exp` times, the product taken
in the exact field `K` (the source multiplies `float64` values, with
rounding). -/
def pow (base : K) : Nat → K
  | 0 => 1
  | exp + 1 => pow base exp * base

/-- The seed of row `i` (Function.go 61): `float64(mRand.Intn(100) + 1)`, where
`draws i` is the outcome of the `i`-th call `mRand.Intn(100)`. -/
def seedOf (draws : Nat → Nat) (i : Nat) : K :=
  ((draws i + 1 : Nat) : K)

/-- The matrix of Function.go 64-72: `data[i*n+j] = pow(alpha[i], j)`, as an
`m × n` matrix. -/
def vandermondeData (alpha : Nat → K) (m n : Nat) : Dense K :=
  ⟨m, n, fun i j => pow (alpha i) j⟩

/-- `GenerateSubMatrixFullRank` (Function.go 50-73): panics when `m > n`; then
`make([]float64, m)` panics on a negative `m`, the `m` seeds are drawn, and
`mat.NewDense(m, n, data)` builds the matrix of their powers, a panic when a
dimension is zero. -/
def GenerateSubMatrixFullRank (m n : Int) (draws : Nat → Nat) : Option (Dense K) :=
  if m > n then none
  else if m < 0 then none
  else NewDense m n fun i j => pow (seedOf draws i) j

/-- The matrix with the given rows. -/
def Dense.ofRows (rows : List (List K)) : Dense K :=
  ⟨rows.length, (rows.headD []).length, fun i j => (rows.getD i []).getD j 0⟩

/-- The entries of a `Dense` as a matrix of the given shape. -/
def Dense.toMatrix (M : Dense K) (r c : Nat) : Matrix (Fin r) (Fin c) K :=
  Matrix.of fun i j => M.At i j

/-- Library `mat.Col(nil, j, M)`: column `j` as a slice; panics when `j` is out
of range. -/
def Col (j : Nat) (M : Dense K) : Option (List K) :=
  if j < M.cols then some ((List.range M.rows).map fun i => M.At i j) else none

/-- Library `Dense.Mul`: the matrix product, a panic on mismatched shapes. -/
def Dense.Mul (A B : Dense K) : Option (Dense K) :=
  if A.cols ≠ B.rows then none
  else some ⟨A.rows, B.cols, fun i j => ∑ k in Finset.range A.cols, A.At i k * B.At k j⟩

/-- Library `Dense.T`: the transpose. -/
def Dense.T (A : Dense K) : Dense K :=
  ⟨A.cols, A.rows, fun i j => A.At j i⟩

/-- `ExtractSubmatrix` (utils.go 183-203): the first `b` rows, a panic when
`b` exceeds the number of rows, and a panic of `mat.NewDense(b, cols, nil)`
when `b` is zero or negative. -/
def ExtractSubmatrix (matDense : Dense K) (b : Int) : Option (Dense K) :=
  if b > matDense.rows then none
  else NewDense b matDense.cols fun i j => matDense.At i j

/-- `extractColumns` (Function.go 307-314): column `i` of the result is column
`columns[i]` of the matrix; `mat.NewDense(rows, len(columns), nil)` panics on
an empty column list and `mat.Col` on a column out of range. -/
def extractColumns (matrix : Dense K) (columns : List Nat) : Option (Dense K) :=
  if columns.all (fun col => decide (col < matrix.cols)) then
    NewDense matrix.rows columns.length fun i j => matrix.At i (columns.getD j 0)
  else none

/-- The loop of `extractRowsVec` (Function.go 329-331):
`result[i] = vector.AtVec(rows[i])`. -/
def extractRowsLoop (vector : List K) : List Nat → Option (List K)
  | [] => some []
  | row :: rest => do
    let x ← vector[row]?
    let xs ← extractRowsLoop vector rest
    some (x :: xs)

/-- `extractRowsVec` (Function.go 327-333): the entries of the vector at the
given indices; `mat.NewVecDense(len(rows), result)` panics on an empty index
list. -/
def extractRowsVec (vector : List K) (rows : List Nat) : Option (List K) := do
  let result ← extractRowsLoop vector rows
  NewVecDense rows.length result

/-- The inner loop of Function.go 287-292 for one honest server `h` with
column `col` of `B_known`: `S_I[i] = S_I[i] - Respond[h] * col[i]` for every
`i < S_I.Len()`. -/
def subtractCol (Respond : List K) (h : Nat) (col : List K) (S_I : List K) : Option (List K) :=
  if S_I.length = 0 then some S_I
  else
    match Respond[h]? with
    | none => none
    | some rh =>
      if col.length < S_I.length then none
      else some (List.zipWith (fun a c => a - rh * c) S_I col)

/-- The loop `for k, h := range HonestServers` of Function.go 285-293, from
position `k` on. -/
def subtractKnown (B_known : Dense K) (Respond : List K) :
    Nat → List Nat → List K → Option (List K)
  | _, [], S_I => some S_I
  | k, h :: rest, S_I => do
    let col ← Col k B_known
    let S_I1 ← subtractCol Respond h col S_I
    subtractKnown B_known Respond (k + 1) rest S_I1

/-- Modelled from the spec: the library solver `VecDense.SolveVec` is not part
of the sources. It solves the square linear system `A · x = b`: the unique
solution when `A` is non-singular (here by Cramer's rule), a failure when `A`
is singular or the shapes do not match. Both callers reach it only with as many
rows of `A` as entries of `b`, and produce a result only when `A` is square. -/
def SolveVec (A : Dense K) (b : List K) : Option (List K) :=
  if A.rows ≠ b.length then none
  else if A.rows ≠ A.cols then none
  else
    let M : Matrix (Fin A.rows) (Fin A.rows) K := Matrix.of fun i j => A.At i j
    let bv : Fin A.rows → K := fun i => b.getD i 0
    if M.det = 0 then none
    else some (List.ofFn fun i => M.det⁻¹ * Matrix.cramer M bv i)

/-- `Reconstruct` (Function.go 272-304). The rows of `B` are its first
`errorCount` rows (line 277) while the entries of `S` are those at the indices
`ByzantineServers` (line 282). An error of the solver is a panic. -/
def Reconstruct (B : Dense K) (S : List K) (Respond : List K)
    (ByzantineServers HonestServers : List Nat) (errorCount : Nat) : Option (List K) := do
  let B_I ← ExtractSubmatrix B (errorCount : Int)
  let B_unknown ← extractColumns B_I ByzantineServers
  let B_known ← extractColumns B_I HonestServers
  let S_I ← extractRowsVec S ByzantineServers
  let S_I1 ← subtractKnown B_known Respond 0 HonestServers S_I
  SolveVec B_unknown S_I1

/-- `SolveEquation` (utils.go 118-140): shape checks, then the solver; `none`
is the returned error. -/
def SolveEquation (A : Dense K) (b : List K) : Option (List K) :=
  if A.rows ≠ A.cols then none
  else if b.length ≠ A.rows then none
  else SolveVec A b

/-- `Decode` (Function.go 370-385): `result.MulVec(V_1, yVec)`, which panics
when the vector does not have as many entries as the matrix has columns. -/
def Decode (V_1 : Dense K) (y : List K) : Option (List K) :=
  if V_1.cols ≠ y.length then none
  else some ((List.range V_1.rows).map fun i =>
    ∑ j in Finset.range V_1.cols, V_1.At i j * y.getD j 0)

/-- The output of the library's thin singular value decomposition
(`svd.UTo`, `svd.VTo`, `svd.Values`). -/
structure SVDFactors (K : Type) where
  U : Dense K
  V : Dense K
  values : List K

/-- `Pseudoinverse` (Function.go 336-367): `V · Σ⁺ · Uᵀ`, where `Σ⁺` inverts
the singular values above the tolerance `1e-10`. The library factorisation
`Factorize` is a parameter; `none` from it is `ok = false`, a panic. -/
def Pseudoinverse (Factorize : Dense K → Option (SVDFactors K)) (A : Dense K) :
    Option (Dense K) := do
  let svd ← Factorize A
  let singularValues := svd.values
  let n := singularValues.length
  let tolerance : K := 1 / 10 ^ 10
  let SigmaPlus : Dense K :=
    ⟨n, n, fun i j =>
      if i = j ∧ singularValues.getD i 0 > tolerance then 1 / singularValues.getD i 0 else 0⟩
  let VT ← Dense.Mul svd.V SigmaPlus
  Dense.Mul VT (Dense.T svd.U)

/-- What the library guarantees of a thin singular value decomposition of an
`r × c` matrix `A`, with `k = min r c`: `A = U · diag(σ) · Vᵀ`, the `k` columns
of `U` and of `V` are orthonormal, and the singular values are not negative. -/
def IsThinSVD (A : Dense K) (svd : SVDFactors K) : Prop :=
  svd.values.length = min A.rows A.cols ∧
  svd.U.rows = A.rows ∧ svd.U.cols = min A.rows A.cols ∧
  svd.V.rows = A.cols ∧ svd.V.cols = min A.rows A.cols ∧
  (∀ i < A.rows, ∀ j < A.cols,
    A.At i j = ∑ k in Finset.range (min A.rows A.cols),
      svd.U.At i k * svd.values.getD k 0 * svd.V.At j k) ∧
  (∀ k < min A.rows A.cols, ∀ k' < min A.rows A.cols,
    ∑ i in Finset.range A.rows, svd.U.At i k * svd.U.At i k' = if k = k' then 1 else 0) ∧
  (∀ k < min A.rows A.cols, ∀ k' < min A.rows A.cols,
    ∑ j in Finset.range A.cols, svd.V.At j k * svd.V.At j k' = if k = k' then 1 else 0) ∧
  (∀ k < min A.rows A.cols, 0 ≤ svd.values.getD k 0)

/-! ## The reconstruct-and-reassemble step of `main` -/

/-- The conversion `int64(val)` of `VecDenseToBigIntSlice` (utils.go 151):
truncation toward zero when the result fits `int64`; outside that range the Go
conversion is implementation-dependent and gives the least `int64`, `-2^63`,
on the amd64 target. -/
def truncToInt [FloorRing K] (val : K) : Int :=
  let t : Int := if 0 ≤ val then ⌊val⌋ else ⌈val⌉
  if -2 ^ 63 ≤ t ∧ t < 2 ^ 63 then t else -2 ^ 63

/-- `VecDenseToBigIntSlice` (utils.go 141-156). -/
def VecDenseToBigIntSlice [FloorRing K] (vec : List K) : List Int :=
  vec.map truncToInt

/-- `BigIntSliceToFloat64` (utils.go 98-115), exact over `K`. -/
def BigIntSliceToFloat64 (bigInts : List Int) : List K :=
  bigInts.map fun val => (val : K)

/-- The loop of main.go 151-156: `finalRes[server] = correct_b[i]` for the
`i`-th dishonest server, from position `i` on. -/
def fillByzantine (correct_b : List Int) : Nat → List Nat → List Int → Option (List Int)
  | _, [], finalRes => some finalRes
  | i, server :: rest, finalRes => do
    let c ← correct_b[i]?
    if server < finalRes.length then fillByzantine correct_b (i + 1) rest (finalRes.set server c)
    else none

/-- The loop of main.go 159-161: `finalRes[server] = Respond[server]` for every
honest server. -/
def fillHonest (Respond : List Int) : List Nat → List Int → Option (List Int)
  | [], finalRes => some finalRes
  | server :: rest, finalRes => do
    let r ← Respond[server]?
    if server < finalRes.length then fillHonest Respond rest (finalRes.set server r)
    else none

/-- The retrieval step of `main` (main.go 129-165) from the verified partition
to `finalRes`, the vector handed to `Decode`. `Respond` is the response vector
after `AddError` (the same slice as `erroResponse`). The allocation
`mat.NewVecDense(errorCount, nil)` of line 131 runs before the test of
`errorCount` and panics for `errorCount = 0`. In the branch `errorCount = n`
the solution `correct` of the full system is computed and printed only;
`b_error` stays the zero vector it was allocated as. -/
def retrieveStep [FloorRing K] (B_dense : Dense K) (S_I : List K) (Respond : List Int)
    (ByzantServer HonestServers : List Nat) (errorCount n : Nat) : Option (List Int) := do
  let erroResponse_float : List K := BigIntSliceToFloat64 Respond
  let zero : List K ← NewVecDense errorCount (List.replicate errorCount 0)
  let b_error ←
    if errorCount ≠ 0 then
      if errorCount < n then
        Reconstruct B_dense S_I erroResponse_float ByzantServer HonestServers errorCount
      else
        let _correct := SolveEquation B_dense S_I
        some zero
    else some zero
  let correct_b := VecDenseToBigIntSlice b_error
  let finalRes := List.replicate n (0 : Int)
  if errorCount ≠ 0 then do
    let filled ← fillByzantine correct_b 0 ByzantServer finalRes
    fillHonest Respond HonestServers filled
  else some Respond

end Field

/-- The test of `Verify` at index `i`: the hash of the response differs from the
commitment. -/
def mismatch (sha : List Nat → String) (Y : List Int) (H : List String) (i : Nat) : Bool :=
  decide (Gethash sha (Y.getD i 0) ≠ H.getD i "")

/-! # Properties -/

/-! ## Query generation and response combination -/

theorem innerLoop_eq_sum (Y Q : List Int) :
    ∀ n, n ≤ Y.length → n ≤ Q.length →
      innerLoop Y Q n = some (∑ j in Finset.range n, Y.getD j 0 * Q.getD j 0) := by
  intro n
  induction n with
  | zero => intro _ _; simp [innerLoop]
  | succ n ih =>
    intro hY hQ
    have h1 : n < Y.length := hY
    have h2 : n < Q.length := hQ
    simp [innerLoop, ih (Nat.le_of_lt h1) (Nat.le_of_lt h2), Finset.sum_range_succ,
      List.getElem?_eq_getElem h1, List.getElem?_eq_getElem h2, List.getD_eq_getElem _ _ h1,
      List.getD_eq_getElem _ _ h2]

theorem unitVec_length (m i : Nat) : (unitVec m i).length = m := by
  simp [unitVec]

theorem unitVec_getD (m i j : Nat) (hj : j < m) :
    (unitVec m i).getD j 0 = if j = i then 1 else 0 := by
  unfold unitVec
  rw [List.getD_eq_getElem _ _ (by simpa using hj)]
  by_cases h : i = j
  · subst h; simp
  · rw [List.getElem_set_ne h]
    simp [List.getElem_replicate, Ne.symm h]

theorem GenQuery_eq (a b : Int) (m I : Nat) (r : Nat → Int) (hI : I < m) :
    GenQuery a b m I r =
      some (((List.range m).map r).map (fun rj => a * rj),
        List.zipWith (fun q1j ej => q1j + b * ej)
          (((List.range m).map r).map (fun rj => a * rj)) (unitVec m I)) := by
  have h1 : ¬ ((m : Int) < 0) := by omega
  have h2 : ¬ ((I : Int) < 0 ∨ (m : Int) ≤ I) := by omega
  simp [GenQuery, h1, h2, hI]

theorem q1_getD (a : Int) (m : Nat) (r : Nat → Int) (j : Nat) (hj : j < m) :
    (((List.range m).map r).map (fun rj => a * rj)).getD j 0 = a * r j := by
  rw [List.getD_eq_getElem _ _ (by simpa using hj)]
  simp

theorem q2_getD (a b : Int) (m I : Nat) (r : Nat → Int) (j : Nat) (hj : j < m) :
    (List.zipWith (fun q1j ej => q1j + b * ej)
      (((List.range m).map r).map (fun rj => a * rj)) (unitVec m I)).getD j 0
      = a * r j + b * (if j = I then 1 else 0) := by
  have hu := unitVec_getD m I j hj
  have hl : j < (unitVec m I).length := by simpa [unitVec_length] using hj
  rw [List.getD_eq_getElem _ _ hl] at hu
  rw [List.getD_eq_getElem _ _ (by simpa [unitVec_length] using hj)]
  simp [hu]

/-- C1. Query correctness: for every `a`, every `b ≠ 0`, every share vector `y`
of length `m`, every index `I < m` and every blinding vector `r`, combining the
server's response to the query pair built from `r` gives exactly `y[I]`; the
result does not depend on `r`. -/
theorem query_correctness (a b : Int) (m I : Nat) (y : List Int) (r : Nat → Int)
    (hb : b ≠ 0) (hI : I < m) (hy : y.length = m) :
    ((GenQuery a b m I r).bind fun Q => (GenRespond y Q).bind (CalRespond b))
      = some (y.getD I 0) := by
  rw [GenQuery_eq a b m I r hI]
  simp only [Option.some_bind, GenRespond]
  rw [innerLoop_eq_sum _ _ _ le_rfl (by simp [hy]),
    innerLoop_eq_sum _ _ _ le_rfl (by simp [hy, unitVec_length])]
  simp only [Option.some_bind, Option.bind_eq_bind, CalRespond, hb, if_false]
  congr 1
  rw [← Finset.sum_sub_distrib]
  have : ∀ j ∈ Finset.range y.length,
      (y.getD j 0 * (List.zipWith (fun q1j ej => q1j + b * ej)
          (((List.range m).map r).map (fun rj => a * rj)) (unitVec m I)).getD j 0
        - y.getD j 0 * (((List.range m).map r).map (fun rj => a * rj)).getD j 0)
        = if j = I then y.getD j 0 * b else 0 := by
    intro j hj
    have hj' : j < m := by simpa [hy] using hj
    rw [q2_getD a b m I r j hj', q1_getD a m r j hj']
    split_ifs <;> ring
  have hmem : I ∈ Finset.range y.length := by simpa [hy] using hI
  rw [Finset.sum_congr rfl this, Finset.sum_ite_eq', if_pos hmem]
  exact Int.mul_ediv_cancel _ hb

/-- Witness of `query_correctness`. -/
theorem query_correctness_witness :
    ((GenQuery 3 7 2 (1 : Nat) (fun _ => 4)).bind fun Q =>
        (GenRespond [10, 20] Q).bind (CalRespond 7)) = some ((([10, 20] : List Int)).getD 1 0) :=
  query_correctness 3 7 2 1 [10, 20] (fun _ => 4) (by decide) (by decide) rfl

/-- C2, amended. The query pair determines the requested index: for every `m`,
`a`, `b ≠ 0`, in-range indices `I`, `I'` and blinding vectors `r`, `r'`, equal
query pairs force `I = I'` (the difference `q2 - q1` is `b · e_I`); only the
first component `q1 = a · r` is independent of the index. -/
theorem query_pair_determines_index (a b : Int) (m I I' : Nat) (r r' : Nat → Int)
    (hb : b ≠ 0) (hI : I < m) (hI' : I' < m) :
    (GenQuery a b m I r = GenQuery a b m I' r' → I = I') ∧
      (GenQuery a b m I r).map Prod.fst = (GenQuery a b m I' r).map Prod.fst := by
  rw [GenQuery_eq a b m I r hI, GenQuery_eq a b m I' r' hI', GenQuery_eq a b m I' r hI']
  refine ⟨fun h => ?_, rfl⟩
  simp only [Option.some.injEq, Prod.mk.injEq] at h
  obtain ⟨h1, h2⟩ := h
  have e1 := congrArg (fun l => l.getD I 0) h1
  have e2 := congrArg (fun l => l.getD I 0) h2
  simp only [q1_getD _ _ _ _ hI, q2_getD _ _ _ _ _ _ hI] at e1 e2
  by_contra hne
  rw [e1] at e2
  simp only [if_true, if_neg hne, mul_one, mul_zero, add_zero] at e2
  exact hb (by linarith)

/-- Witness of `query_pair_determines_index`. -/
theorem query_pair_determines_index_witness :
    (GenQuery 1 1 (2 : Nat) (0 : Nat) (fun _ => 0) = GenQuery 1 1 (2 : Nat) (1 : Nat) (fun _ => 0)
        → (0 : Nat) = 1) ∧
      (GenQuery 1 1 (2 : Nat) (0 : Nat) (fun _ => 0)).map Prod.fst
        = (GenQuery 1 1 (2 : Nat) (1 : Nat) (fun _ => 0)).map Prod.fst :=
  query_pair_determines_index 1 1 2 0 1 (fun _ => 0) (fun _ => 0) (by decide) (by decide)
    (by decide)

/-- C2, counterexample. With `m = 2`, `a = b = 1` no choice of blinding vectors
makes the query pair for index `0` equal to the query pair for index `1`. -/
theorem index_hiding_fails :
    ¬ ∃ r r' : Nat → Int, GenQuery 1 1 2 0 r = GenQuery 1 1 2 1 r' := by
  rintro ⟨r, r', h⟩
  have h0 := GenQuery_eq 1 1 2 0 r (by decide)
  have h1 := GenQuery_eq 1 1 2 1 r' (by decide)
  simp only [Nat.cast_ofNat, Nat.cast_zero, Nat.cast_one] at h0 h1
  rw [h0, h1] at h
  simp [unitVec, List.range_succ] at h
  omega

/-! ## Verification -/

theorem getD_map_range {α : Type} (f : Nat → α) (n j : Nat) (d : α) (hj : j < n) :
    ((List.range n).map f).getD j d = f j := by
  rw [List.getD_eq_getElem _ _ (by simpa using hj)]
  simp

theorem fillLoop_eq {α : Type} (f : Nat → Option α) (g : Nat → α) :
    ∀ n, (∀ j < n, f j = some (g j)) → fillLoop f n = some ((List.range n).map g) := by
  intro n
  induction n with
  | zero => intro _; simp [fillLoop]
  | succ n ih =>
    intro h
    simp [fillLoop, ih (fun j hj => h j (Nat.lt_succ_of_lt hj)), h n (Nat.lt_succ_self n),
      List.range_succ]

theorem map_range_getD {α : Type} (l : List α) (d : α) :
    (List.range l.length).map (fun i => l.getD i d) = l := by
  apply List.ext_getElem
  · simp
  · intro i h1 h2
    simp [List.getElem?_eq_getElem h2]

theorem map_range_getD_map {α β : Type} (l : List α) (d : α) (f : α → β) :
    (List.range l.length).map (fun i => f (l.getD i d)) = l.map f := by
  apply List.ext_getElem
  · simp
  · intro i h1 h2
    have h3 : i < l.length := by simpa using h2
    simp [List.getElem?_eq_getElem h3]

theorem verifyLoop_eq (sha : List Nat → String) (Y : List Int) (H : List String) :
    ∀ n, n ≤ Y.length → n ≤ H.length →
      verifyLoop sha Y H n =
        some (((List.range n).filter (mismatch sha Y H)).length,
          (List.range n).filter (mismatch sha Y H),
          (List.range n).filter (fun i => !mismatch sha Y H i)) := by
  intro n
  induction n with
  | zero => intro _ _; simp [verifyLoop]
  | succ n ih =>
    intro hY hH
    have h1 : n < Y.length := hY
    have h2 : n < H.length := hH
    have h3 : n < (GenHashVec sha Y).length := by simpa [GenHashVec] using h1
    rw [verifyLoop, ih (Nat.le_of_lt h1) (Nat.le_of_lt h2)]
    simp only [Option.bind_eq_bind, Option.some_bind, List.getElem?_eq_getElem h3,
      List.getElem?_eq_getElem h2, List.range_succ, List.filter_append]
    by_cases hm : Gethash sha Y[n] = H[n]
    · have : mismatch sha Y H n = false := by
        simp [mismatch, List.getElem?_eq_getElem h1, List.getElem?_eq_getElem h2, hm]
      simp [GenHashVec, hm, this]
    · have : mismatch sha Y H n = true := by
        simp [mismatch, List.getElem?_eq_getElem h1, List.getElem?_eq_getElem h2, hm]
      simp [GenHashVec, hm, this]

theorem GetColumnFromS_eq (Y : List (List Int)) (m I : Nat)
    (hrect : ∀ row ∈ Y, row.length = m) (hI : I < m) :
    GetColumnFromS Y I = some (Y.map fun row => row.getD I 0) := by
  unfold GetColumnFromS
  rw [fillLoop_eq _ (fun i => (Y.getD i []).getD I 0), map_range_getD_map Y [] (fun row => row.getD I 0)]
  intro j hj
  have hr : (Y[j]).length = m := hrect _ (List.getElem_mem hj)
  simp [List.getElem?_eq_getElem hj, List.getElem?_eq_getElem (hr ▸ hI : I < (Y[j]).length)]

theorem GenHashMat_eq (sha : List Nat → String) (Y : List (List Int)) (m : Nat)
    (hrect : ∀ row ∈ Y, row.length = m) :
    GenHashMat sha Y = some (Y.map fun row => row.map (Gethash sha)) := by
  cases Y with
  | nil => simp [GenHashMat]
  | cons row0 rest =>
    have h0 : row0.length = m := hrect _ (List.mem_cons_self _ _)
    unfold GenHashMat
    simp only
    rw [fillLoop_eq _ (fun i => ((row0 :: rest).getD i []).map (Gethash sha)),
      map_range_getD_map (row0 :: rest) [] (fun row => row.map (Gethash sha))]
    intro j hj
    have hr : ((row0 :: rest)[j]).length = m := hrect _ (List.getElem_mem hj)
    rw [List.getElem?_eq_getElem hj]
    simp only [Option.bind_eq_bind, Option.some_bind]
    rw [fillLoop_eq _ (fun i => Gethash sha (((row0 :: rest)[j]).getD i 0)), h0, ← hr,
      map_range_getD_map, List.getD_eq_getElem _ _ hj]
    intro i hi
    rw [h0, ← hr] at hi
    simp [List.getElem?_eq_getElem hi]

theorem GetColumn_eq (M : List (List String)) (m I : Nat)
    (hrect : ∀ row ∈ M, row.length = m) (hI : I < m) :
    GetColumn M I = some (M.map fun row => row.getD I "") := by
  unfold GetColumn
  rw [fillLoop_eq _ (fun i => (M.getD i []).getD I ""), map_range_getD_map M [] (fun row => row.getD I "")]
  intro j hj
  have hr : (M[j]).length = m := hrect _ (List.getElem_mem hj)
  simp [List.getElem?_eq_getElem hj, List.getElem?_eq_getElem (hr ▸ hI : I < (M[j]).length)]

/-- C4. Untampered responses verify clean: for every `n × m` share table `Y` and
every column `I < m`, `Verify` on column `I` of `Y` and column `I` of
`GenHashMat(Y)` returns count `0`, no dishonest server and the honest list
`[0, ..., n-1]`. -/
theorem verify_untampered (sha : List Nat → String) (Y : List (List Int)) (m I : Nat)
    (hrect : ∀ row ∈ Y, row.length = m) (hI : I < m) :
    ((GetColumnFromS Y I).bind fun y =>
      (GenHashMat sha Y).bind fun Hm =>
        (GetColumn Hm I).bind fun H => Verify sha y H)
      = some (0, [], List.range Y.length) := by
  rw [GetColumnFromS_eq Y m I hrect hI, GenHashMat_eq sha Y m hrect]
  simp only [Option.some_bind]
  rw [GetColumn_eq _ m I (by
    intro row hrow
    obtain ⟨r, hr, rfl⟩ := List.mem_map.1 hrow
    simpa using hrect r hr) hI]
  simp only [Option.some_bind, Verify]
  rw [verifyLoop_eq _ _ _ _ le_rfl (by simp)]
  have hm : ∀ i ∈ List.range (Y.map fun row => row.getD I 0).length,
      mismatch sha (Y.map fun row => row.getD I 0)
        ((Y.map fun row => row.map (Gethash sha)).map fun row => row.getD I "") i = false := by
    intro i hi
    have hi' : i < Y.length := by simpa using hi
    have hr : (Y[i]).length = m := hrect _ (List.getElem_mem hi')
    have hI' : I < (Y[i]).length := hr ▸ hI
    simp [mismatch, List.getElem?_eq_getElem hi', List.getElem?_eq_getElem hI']
  have e1 : (List.range (Y.map fun row => row.getD I 0).length).filter
      (mismatch sha (Y.map fun row => row.getD I 0)
        ((Y.map fun row => row.map (Gethash sha)).map fun row => row.getD I "")) = [] := by
    rw [List.filter_eq_nil_iff]
    intro i hi
    rw [hm i hi]
    decide
  have e2 : (List.range (Y.map fun row => row.getD I 0).length).filter
      (fun i => !mismatch sha (Y.map fun row => row.getD I 0)
        ((Y.map fun row => row.map (Gethash sha)).map fun row => row.getD I "") i)
        = List.range Y.length := by
    rw [List.filter_eq_self.2]
    · simp
    · intro i hi
      rw [hm i hi]
      rfl
  rw [e1, e2]
  rfl

/-- Witness of `verify_untampered`. -/
theorem verify_untampered_witness :
    ((GetColumnFromS [[1, 2], [3, 4]] 1).bind fun y =>
      (GenHashMat (fun _ => "") [[1, 2], [3, 4]]).bind fun Hm =>
        (GetColumn Hm 1).bind fun H => Verify (fun _ => "") y H)
      = some (0, [], List.range ([[1, 2], [3, 4]] : List (List Int)).length) :=
  verify_untampered (fun _ => "") [[1, 2], [3, 4]] 2 1 (by simp) (by decide)

/-- C3. Verification under tampering misses a server whose true share is `1`:
for the share column `y = [1, 5]` and the tampered index set `D = [0]`, for
every digest function (injective or not) the response `-1` of server `0` hashes
to the commitment of its true share `1`, so `Verify` returns count `0`, an
empty dishonest list and both servers as honest, not the dishonest set `[0]`. -/
theorem verify_misses_sentinel_on_unit_share (sha : List Nat → String) :
    Verify sha (AddError [0] [1, 5]) (GenHashVec sha [1, 5]) = some (0, [], [0, 1]) := by
  simp [Verify, verifyLoop, AddError, GenHashVec, Gethash, Bytes]

theorem AddError_length (B : List Int) : ∀ Y : List Int, (AddError B Y).length = Y.length := by
  induction B with
  | nil => intro Y; rfl
  | cons b B ih =>
    intro Y
    simp only [AddError, List.foldl_cons] at ih ⊢
    rw [ih]
    split_ifs <;> simp

theorem AddError_getD (B : List Int) :
    ∀ (Y : List Int) (i : Nat), i < Y.length →
      (AddError B Y).getD i 0 = if (i : Int) ∈ B then -1 else Y.getD i 0 := by
  induction B with
  | nil => intro Y i _; simp [AddError]
  | cons b B ih =>
    intro Y i hi
    simp only [AddError, List.foldl_cons] at ih ⊢
    by_cases hb : 0 ≤ b ∧ b < (Y.length : Int)
    · rw [if_pos hb, ih _ i (by simpa using hi)]
      by_cases hB : (i : Int) ∈ B
      · simp [hB]
      · rw [if_neg hB]
        by_cases hbi : (i : Int) = b
        · have : b.toNat = i := by omega
          simp [hbi, this, List.getD_eq_getElem?_getD, List.getElem?_set, hi]
        · have : b.toNat ≠ i := by omega
          simp [hbi, hB, List.getD_eq_getElem?_getD, List.getElem?_set, this]
    · rw [if_neg hb, ih _ i hi]
      have hbi : (i : Int) ≠ b := by
        intro h
        apply hb
        omega
      simp [hbi]

theorem Bytes_eq_iff (x y : Int) : Bytes x = Bytes y ↔ x.natAbs = y.natAbs := by
  unfold Bytes
  rw [List.reverse_inj]
  exact ⟨fun h => Nat.digits.injective 256 h, fun h => by rw [h]⟩

theorem filter_range_mem (D : List Nat) (n : Nat) (hD : D.Sorted (· < ·))
    (hrange : ∀ i ∈ D, i < n) :
    (List.range n).filter (fun i => decide (i ∈ D)) = D := by
  apply List.eq_of_perm_of_sorted (r := (· < ·))
  · rw [List.perm_ext_iff_of_nodup ((List.nodup_range n).filter _) hD.nodup]
    intro a
    simp only [List.mem_filter, List.mem_range, decide_eq_true_eq]
    exact ⟨fun h => h.2, fun h => ⟨hrange a h, h⟩⟩
  · exact (List.sorted_lt_range n).filter _
  · exact hD

/-- Tamper detection apart from the sign: when the digest is injective on byte
strings and no tampered server has a true share of magnitude `1`, `Verify`
returns exactly the ascending index list `D` as its dishonest list. -/
theorem verify_detects_tampering (sha : List Nat → String) (hinj : Function.Injective sha)
    (y : List Int) (D : List Nat) (hD : D.Sorted (· < ·)) (hrange : ∀ i ∈ D, i < y.length)
    (hne : ∀ i ∈ D, (y.getD i 0).natAbs ≠ 1) :
    Verify sha (AddError (D.map Int.ofNat) y) (GenHashVec sha y)
      = some (D.length, D, (List.range y.length).filter fun i => decide (i ∉ D)) := by
  unfold Verify
  rw [verifyLoop_eq _ _ _ _ le_rfl (by simp [AddError_length, GenHashVec]), AddError_length]
  have hm : ∀ i ∈ List.range y.length,
      mismatch sha (AddError (D.map Int.ofNat) y) (GenHashVec sha y) i
        = decide (i ∈ D) := by
    intro i hi
    have hi' : i < y.length := by simpa using hi
    have hH : (GenHashVec sha y).getD i "" = Gethash sha (y.getD i 0) := by
      simp [GenHashVec, List.getD_eq_getElem?_getD, List.getElem?_eq_getElem hi']
    unfold mismatch
    rw [AddError_getD _ _ _ hi', hH]
    have hmem : ((i : Int) ∈ D.map Int.ofNat) ↔ i ∈ D := by simp
    by_cases h : i ∈ D
    · rw [if_pos (hmem.2 h)]
      have : Gethash sha (-1) ≠ Gethash sha (y.getD i 0) := by
        intro e
        have := (Bytes_eq_iff _ _).1 (hinj e)
        exact hne i h this.symm
      rw [decide_eq_true this, decide_eq_true h]
    · rw [if_neg (fun e => h (hmem.1 e)), decide_eq_false h, decide_eq_false (by simp)]
  have e1 : (List.range y.length).filter
      (mismatch sha (AddError (D.map Int.ofNat) y) (GenHashVec sha y))
        = (List.range y.length).filter (fun i => decide (i ∈ D)) :=
    List.filter_congr hm
  have e2 : (List.range y.length).filter
      (fun i => !mismatch sha (AddError (D.map Int.ofNat) y) (GenHashVec sha y) i)
        = (List.range y.length).filter (fun i => decide (i ∉ D)) :=
    List.filter_congr fun i hi => by rw [hm i hi]; simp
  rw [e1, e2, filter_range_mem D _ hD hrange]


/-! ## Reconstruction -/

/-- C5. Reconstruction outside the leading index set: for `n = 2`, seeds
`(1, 2)`, share vector `v = (3, 4)`, `S = B · v = (7, 11)`, dishonest set
`D = [1]`, honest set `H = [0]` and responses `(3, -1)`, `Reconstruct` pairs
row `0` of `B` with entry `S[1]` and returns `[8]`, while the value of `v` on
`D` is `[4]`. -/
theorem reconstruct_wrong_outside_leading_set :
    ((GenerateSubMatrixFullRank (K := ℚ) 2 2 (fun i => i)).bind fun B => Decode B [3, 4])
        = some [7, 11] ∧
      ((GenerateSubMatrixFullRank (K := ℚ) 2 2 (fun i => i)).bind fun B =>
        Reconstruct B [7, 11] [3, -1] [1] [0] 1) = some [8] := by
  constructor
  · simp [GenerateSubMatrixFullRank, NewDense, Decode, seedOf, pow, Finset.sum_range_succ,
      List.range_succ]
    norm_num
  · simp [GenerateSubMatrixFullRank, NewDense, NewVecDense, Reconstruct, ExtractSubmatrix,
      extractColumns, extractRowsVec, extractRowsLoop, subtractKnown, subtractCol, Col,
      SolveVec, seedOf, pow, Matrix.cramer_apply, Matrix.det_unique]
    norm_num

/-! ## The boundary `errorCount = n` -/

theorem fillByzantine_zero (n : Nat) :
    ∀ (l : List Nat) (i : Nat), (∀ s ∈ l, s < n) → i + l.length ≤ n →
      fillByzantine (List.replicate n (0 : Int)) i l (List.replicate n 0)
        = some (List.replicate n 0) := by
  intro l
  induction l with
  | nil => intro i _ _; rfl
  | cons s rest ih =>
    intro i hs hlen
    have hi : i < n := by simp at hlen; omega
    have hsn : s < n := hs s (List.mem_cons_self _ _)
    have hset : (List.replicate n (0 : Int)).set s 0 = List.replicate n 0 := by
      apply List.ext_getElem
      · simp
      · intro j h1 h2
        simp [List.getElem_set]
    rw [fillByzantine]
    simp only [List.getElem?_replicate, if_pos hi, Option.bind_eq_bind, Option.some_bind,
      List.length_replicate, if_pos hsn, hset]
    exact ih (i + 1) (fun x hx => hs x (List.mem_cons_of_mem _ hx)) (by simp at hlen ⊢; omega)

/-- With `errorCount = n > 0` and every server detected dishonest, `finalRes` is
the zero vector, whatever the check matrix, the verification column and the
responses are. -/
theorem retrieveStep_all_dishonest {K : Type} [LinearOrderedField K] [FloorRing K]
    (B : Dense K) (S_I : List K) (Respond : List Int) (n : Nat) :
    retrieveStep B S_I Respond (List.range (n + 1)) [] (n + 1) (n + 1)
      = some (List.replicate (n + 1) 0) := by
  have hz : VecDenseToBigIntSlice (List.replicate (n + 1) (0 : K))
      = List.replicate (n + 1) (0 : Int) := by
    simp [VecDenseToBigIntSlice, truncToInt]
  have hnew : NewVecDense ((n + 1 : Nat) : Int) (List.replicate (n + 1) (0 : K))
      = some (List.replicate (n + 1) 0) := by
    have : ¬ (((n + 1 : Nat) : Int) ≤ 0) := by omega
    simp only [NewVecDense, this, if_false]
  simp only [retrieveStep, hnew, ne_eq, Nat.succ_ne_zero, not_false_eq_true, if_true,
    lt_irrefl, if_false, Option.bind_eq_bind, Option.some_bind, hz, Nat.add_one_ne_zero]
  rw [fillByzantine_zero (n + 1) (List.range (n + 1)) 0 (by simp) (by simp)]
  rfl

/-- With `errorCount = 0` the step panics in the allocation of `b_error`
(main.go 131), before the test of `errorCount`. -/
theorem retrieveStep_zero_errorCount {K : Type} [LinearOrderedField K] [FloorRing K]
    (B : Dense K) (S_I : List K) (Respond : List Int) (byz hon : List Nat) (n : Nat) :
    retrieveStep B S_I Respond byz hon 0 n = none := by
  simp [retrieveStep, NewVecDense]

/-- C6. The boundary `errorCount = n`: for `n = errorCount = 2`, seeds `(1, 2)`,
true share column `(3, 4)`, `S[·][I] = (7, 11)` and both servers detected
dishonest, the full system `B · x = S[·][I]` has the solution `(3, 4)`, and the
vector `finalRes` handed to `Decode` is `(0, 0)`. -/
theorem full_system_solution_discarded :
    ((GenerateSubMatrixFullRank (K := ℚ) 2 2 (fun i => i)).bind fun B =>
        SolveEquation B [7, 11]) = some [3, 4] ∧
      ((GenerateSubMatrixFullRank (K := ℚ) 2 2 (fun i => i)).bind fun B =>
        retrieveStep B [7, 11] [-1, -1] [0, 1] [] 2 2) = some [0, 0] := by
  constructor
  · simp [GenerateSubMatrixFullRank, NewDense, SolveEquation, SolveVec, seedOf, pow,
      Matrix.cramer_apply, Matrix.det_fin_two, List.ofFn_succ]
    norm_num
  · have hB : GenerateSubMatrixFullRank (K := ℚ) 2 2 (fun i => i)
        = some ⟨2, 2, fun i j => pow (seedOf (fun i => i) i) j⟩ := by
      simp [GenerateSubMatrixFullRank, NewDense]
    rw [hB]
    exact retrieveStep_all_dishonest _ _ _ 1

/-! ## Response combination -/

/-- C7, amended. Non-exact division is not reported: for every `b ≠ 0` and every
response pair `(a1, a2)` such that `a2 - a1` is not a multiple of `b`,
`CalRespond` returns a value `q`, the Euclidean quotient, with
`q · b ≠ a2 - a1`. -/
theorem CalRespond_truncates (b a1 a2 : Int) (hb : b ≠ 0) (hnd : ¬ b ∣ a2 - a1) :
    ∃ q, CalRespond b (a1, a2) = some q ∧ q = (a2 - a1) / b ∧ q * b ≠ a2 - a1 := by
  refine ⟨(a2 - a1) / b, by simp [CalRespond, hb], rfl, ?_⟩
  intro h
  exact hnd ⟨(a2 - a1) / b, by rw [mul_comm]; exact h.symm⟩

/-- Witness of `CalRespond_truncates`. -/
theorem CalRespond_truncates_witness :
    ∃ q, CalRespond 2 (0, 1) = some q ∧ q = (1 - 0) / 2 ∧ q * 2 ≠ 1 - 0 :=
  CalRespond_truncates 2 0 1 (by decide) (by decide)

/-- C7, counterexample. With `b = 2` and the response pair `(0, 1)` the
difference `1` is not a multiple of `b`, and `CalRespond` returns the quotient
`0` and no error. -/
theorem CalRespond_reports_nothing :
    ¬ (2 : Int) ∣ 1 - 0 ∧ CalRespond 2 (0, 1) = some 0 := by
  constructor
  · decide
  · rfl

/-! ## The check matrix -/

/-- Membership in the set of positive roots of a non-zero real polynomial. -/
theorem mem_posRoots {p : Polynomial ℝ} (hp : p ≠ 0) (x : ℝ) :
    x ∈ p.roots.toFinset.filter (fun x => 0 < x) ↔ 0 < x ∧ p.eval x = 0 := by
  simp [Polynomial.mem_roots hp, Polynomial.IsRoot, and_comm]

/-- Rolle: between two consecutive positive roots of `p` lies a positive root of
its derivative. -/
theorem posRoots_card_le_derivative (p : Polynomial ℝ) (hp : p ≠ 0) (hp' : Polynomial.derivative p ≠ 0) :
    (p.roots.toFinset.filter (fun x => 0 < x)).card ≤ (((Polynomial.derivative p).roots.toFinset.filter (fun x => 0 < x))).card + 1 := by
  apply Finset.card_le_of_interleaved
  intro x hx y hy hxy _
  rw [mem_posRoots hp] at hx hy
  obtain ⟨z, hz1, hz2⟩ := exists_deriv_eq_zero hxy p.continuous.continuousOn
    (hx.2.trans hy.2.symm)
  refine ⟨z, ?_, hz1.1, hz1.2⟩
  rw [mem_posRoots hp']
  refine ⟨lt_trans hx.1 hz1.1, ?_⟩
  rwa [Polynomial.deriv] at hz2

/-- Differentiation removes the constant term. -/
theorem card_support_derivative_lt (p : Polynomial ℝ) (h0 : p.coeff 0 ≠ 0) :
    (Polynomial.derivative p).support.card + 1 ≤ p.support.card := by
  have hsub : (Polynomial.derivative p).support.image (fun k => k + 1) ⊆ p.support.erase 0 := by
    intro m hm
    obtain ⟨k, hk, rfl⟩ := Finset.mem_image.1 hm
    rw [Finset.mem_erase]
    refine ⟨Nat.succ_ne_zero k, ?_⟩
    rw [Polynomial.mem_support_iff] at hk ⊢
    intro h
    apply hk
    rw [Polynomial.coeff_derivative, h, zero_mul]
  have h1 := Finset.card_le_card hsub
  rw [Finset.card_image_of_injective _ (fun a b h => Nat.succ_injective h)] at h1
  have h2 : 0 ∈ p.support := Polynomial.mem_support_iff.2 h0
  rw [Finset.card_erase_of_mem h2] at h1
  have h3 : 0 < p.support.card := Finset.card_pos.2 ⟨0, h2⟩
  omega

/-- Division by `X` does not add terms. -/
theorem card_support_divX_le (p : Polynomial ℝ) : (Polynomial.divX p).support.card ≤ p.support.card := by
  have hsub : (Polynomial.divX p).support.image (fun k => k + 1) ⊆ p.support := by
    intro m hm
    obtain ⟨k, hk, rfl⟩ := Finset.mem_image.1 hm
    rw [Polynomial.mem_support_iff] at hk ⊢
    rwa [Polynomial.coeff_divX] at hk
  have h1 := Finset.card_le_card hsub
  rwa [Finset.card_image_of_injective _ (fun a b h => Nat.succ_injective h)] at h1

/-- A non-zero real polynomial has fewer distinct positive roots than non-zero
coefficients. -/
theorem posRoots_card_lt_support :
    ∀ (d : Nat) (p : Polynomial ℝ), p.natDegree = d → p ≠ 0 → (p.roots.toFinset.filter (fun x => 0 < x)).card + 1 ≤ p.support.card := by
  intro d
  induction d using Nat.strong_induction_on with
  | _ d ih =>
    intro p hd hp
    by_cases h0 : p.coeff 0 = 0
    · -- p = Polynomial.divX p * Polynomial.X
      have hpq : p = Polynomial.divX p * Polynomial.X := by
        conv_lhs => rw [← Polynomial.divX_mul_X_add p, h0]
        simp
      have hq : Polynomial.divX p ≠ 0 := by
        intro h
        apply hp
        rw [hpq, h, zero_mul]
      have hdeg : (Polynomial.divX p).natDegree < d := by
        rw [← hd]
        conv_rhs => rw [hpq]
        rw [Polynomial.natDegree_mul_X hq]
        exact Nat.lt_succ_self _
      have hroots : p.roots.toFinset.filter (fun x => 0 < x) = ((Polynomial.divX p).roots.toFinset.filter (fun x => 0 < x)) := by
        ext x
        rw [mem_posRoots hp, mem_posRoots hq]
        constructor
        · rintro ⟨hx, he⟩
          refine ⟨hx, ?_⟩
          rw [hpq, Polynomial.eval_mul, Polynomial.eval_X] at he
          rcases mul_eq_zero.1 he with h | h
          · exact h
          · exact absurd h hx.ne'
        · rintro ⟨hx, he⟩
          refine ⟨hx, ?_⟩
          rw [hpq, Polynomial.eval_mul, he, zero_mul]
      rw [hroots]
      exact le_trans (ih _ hdeg (Polynomial.divX p) rfl hq) (card_support_divX_le p)
    · by_cases hp' : Polynomial.derivative p = 0
      · have hc : p.natDegree = 0 := Polynomial.natDegree_eq_zero_of_derivative_eq_zero hp'
        have hempty : p.roots.toFinset.filter (fun x => 0 < x) = ∅ := by
          rw [Polynomial.eq_C_of_natDegree_eq_zero hc]
          simp
        rw [hempty]
        have : 0 < p.support.card := Finset.card_pos.2 ⟨0, Polynomial.mem_support_iff.2 h0⟩
        simpa using this
      · have hdeg : (Polynomial.derivative p).natDegree < d := by
          rw [← hd]
          apply Polynomial.natDegree_derivative_lt
          intro hc
          exact hp' (by rw [Polynomial.eq_C_of_natDegree_eq_zero hc, Polynomial.derivative_C])
        have h1 := ih _ hdeg (Polynomial.derivative p) rfl hp'
        have h2 := posRoots_card_le_derivative p hp hp'
        have h3 := card_support_derivative_lt p h0
        omega

/-- A generalised Vandermonde matrix `x i ^ e j` with distinct positive nodes and
distinct exponents is non-singular. -/
theorem det_generalized_vandermonde_ne_zero (k : Nat) (x : Fin k → ℝ) (e : Fin k → ℕ)
    (hx : Function.Injective x) (hpos : ∀ i, 0 < x i) (he : Function.Injective e) :
    (Matrix.of fun i j => x i ^ e j : Matrix (Fin k) (Fin k) ℝ).det ≠ 0 := by
  intro hdet
  obtain ⟨v, hv, hMv⟩ := Matrix.exists_mulVec_eq_zero_iff.2 hdet
  let p : Polynomial ℝ := ∑ j, Polynomial.monomial (e j) (v j)
  have hcoeff : ∀ j, p.coeff (e j) = v j := by
    intro j
    simp only [p, Polynomial.finset_sum_coeff, Polynomial.coeff_monomial]
    rw [Finset.sum_eq_single j]
    · simp
    · intro b _ hb
      rw [if_neg (fun h => hb (he h))]
    · intro h; exact absurd (Finset.mem_univ j) h
  have hp : p ≠ 0 := by
    intro h
    apply hv
    funext j
    rw [← hcoeff j, h]
    simp
  have hroot : ∀ i, p.eval (x i) = 0 := by
    intro i
    have := congrFun hMv i
    simp only [Matrix.mulVec, Matrix.dotProduct, Matrix.of_apply, Pi.zero_apply] at this
    simp only [p, Polynomial.eval_finset_sum, Polynomial.eval_monomial]
    rw [← this]
    exact Finset.sum_congr rfl fun j _ => mul_comm _ _
  have hcard1 : k ≤ (p.roots.toFinset.filter (fun x => 0 < x)).card := by
    have hsub : Finset.univ.image x ⊆ p.roots.toFinset.filter (fun x => 0 < x) := by
      intro y hy
      obtain ⟨i, _, rfl⟩ := Finset.mem_image.1 hy
      exact (mem_posRoots hp _).2 ⟨hpos i, hroot i⟩
    have := Finset.card_le_card hsub
    rwa [Finset.card_image_of_injective _ hx, Finset.card_univ, Fintype.card_fin] at this
  have hcard2 : p.support.card ≤ k := by
    have hsub : p.support ⊆ Finset.univ.image e := by
      intro m hm
      rw [Polynomial.mem_support_iff] at hm
      by_contra hne
      apply hm
      simp only [p, Polynomial.finset_sum_coeff, Polynomial.coeff_monomial]
      apply Finset.sum_eq_zero
      intro j _
      rw [if_neg]
      intro h
      exact hne (Finset.mem_image.2 ⟨j, Finset.mem_univ j, h⟩)
    have := Finset.card_le_card hsub
    have h2 := Finset.card_image_le (s := Finset.univ) (f := e)
    rw [Finset.card_univ, Fintype.card_fin] at h2
    omega
  have := posRoots_card_lt_support _ p rfl hp
  omega

theorem pow_eq {K : Type} [LinearOrderedField K] (base : K) (exp : Nat) :
    pow base exp = base ^ exp := by
  induction exp with
  | zero => simp [pow]
  | succ e ih => rw [pow, ih, pow_succ]

/-- C8. Check-matrix property, over the reals: for every `n` and all seeds
`alpha_0 .. alpha_{n-1}` that are positive and pairwise distinct, every `k × k`
submatrix (any `k` distinct rows `r`, any `k` distinct columns `c`) of the
matrix `B[i][j] = alpha_i^j` built by `GenerateSubMatrixFullRank` is
non-singular. -/
theorem check_matrix_submatrices_nonsingular (alpha : Nat → ℝ) (n k : Nat)
    (hpos : ∀ i < n, 0 < alpha i) (hdist : ∀ i < n, ∀ j < n, alpha i = alpha j → i = j)
    (r c : Fin k → Fin n) (hr : Function.Injective r) (hc : Function.Injective c) :
    (Matrix.of fun i j : Fin k => (vandermondeData alpha n n).At (r i) (c j)).det ≠ 0 := by
  have h := det_generalized_vandermonde_ne_zero k (fun i => alpha (r i)) (fun j => (c j : Nat))
    (fun a b hab => hr (Fin.ext (hdist _ (r a).2 _ (r b).2 hab)))
    (fun i => hpos _ (r i).2) (fun a b hab => hc (Fin.ext hab))
  have e : (Matrix.of fun i j : Fin k => (vandermondeData alpha n n).At (r i) (c j))
      = Matrix.of fun i j : Fin k => alpha (r i) ^ (c j : Nat) := by
    ext i j
    simp [vandermondeData, pow_eq]
  rw [e]
  exact h

/-- Witness of `check_matrix_submatrices_nonsingular`: seeds `1, 2, 3`, rows
`0, 2` and columns `1, 2`. -/
theorem check_matrix_submatrices_nonsingular_witness :
    (Matrix.of fun i j : Fin 2 =>
      (vandermondeData (fun i => (i : ℝ) + 1) 3 3).At ((![0, 2] : Fin 2 → Fin 3) i)
        ((![1, 2] : Fin 2 → Fin 3) j)).det ≠ 0 :=
  check_matrix_submatrices_nonsingular (fun i => (i : ℝ) + 1) 3 2
    (fun i _ => by positivity) (fun i _ j _ h => by simpa using h) ![0, 2] ![1, 2]
    (by decide) (by decide)

/-! ## The seeds of the check matrix -/

/-- Every seed is positive: it is a draw from `0 .. 99` plus one. -/
theorem seedOf_pos {K : Type} [LinearOrderedField K] (draws : Nat → Nat) (i : Nat) :
    (0 : K) < seedOf draws i := by
  unfold seedOf
  exact_mod_cast Nat.succ_pos (draws i)

/-- C9. The seeds are not distinct by construction: for `m = n = 2`, when both
draws of `mRand.Intn(100)` are `0` the two seeds are equal (both `1`), and the
check matrix has determinant `0`. -/
theorem seeds_can_repeat :
    seedOf (K := ℚ) (fun _ => 0) 0 = seedOf (fun _ => 0) 1 ∧
      (GenerateSubMatrixFullRank (K := ℚ) 2 2 (fun _ => 0)).map
        (fun B => (Matrix.of fun (i j : Fin 2) => B.At i j).det) = some 0 := by
  constructor
  · rfl
  · simp [GenerateSubMatrixFullRank, NewDense, seedOf, pow, Matrix.det_fin_two]

/-! ## Decoding -/

/-- C10, amended. Encoding correctness for full column rank: over an exact
ordered field, for every `n × l` encoding matrix `V` with `l ≤ n` that has a
thin singular value decomposition whose `l` singular values all exceed the
tolerance `1e-10` (full column rank `l`), every `l × m` database `X` and every
column `I < m`, `Decode(Pseudoinverse(V), column I of V·X)` equals column `I`
of `X`. -/
theorem decode_full_column_rank {K : Type} [LinearOrderedField K]
    (Factorize : Dense K → Option (SVDFactors K)) (A X : Dense K)
    (svd : SVDFactors K) (I : Nat)
    (hF : Factorize A = some svd) (hsvd : IsThinSVD A svd) (hle : A.cols ≤ A.rows)
    (htol : ∀ k < A.cols, svd.values.getD k 0 > 1 / 10 ^ 10)
    (hX : X.rows = A.cols) (hI : I < X.cols) :
    ((Pseudoinverse Factorize A).bind fun P =>
      (Dense.Mul A X).bind fun Y => (Col I Y).bind fun y => Decode P y) = Col I X := by
  obtain ⟨hlen, hUr, hUc, hVr, hVc, hA, hU, hV, -⟩ := hsvd
  rw [min_eq_right hle] at hlen hUc hVc hA hU hV
  set n := A.rows with hn
  set l := A.cols with hl
  -- the matrices of the factors
  let Um : Matrix (Fin n) (Fin l) K := svd.U.toMatrix n l
  let Vm : Matrix (Fin l) (Fin l) K := svd.V.toMatrix l l
  let D : Matrix (Fin l) (Fin l) K := Matrix.diagonal fun k => svd.values.getD k 0
  let Dinv : Matrix (Fin l) (Fin l) K := Matrix.diagonal fun k => 1 / svd.values.getD k 0
  have hUU : Um.transpose * Um = 1 := by
    ext k k'
    simp only [Matrix.mul_apply, Matrix.transpose_apply, Um, Dense.toMatrix, Matrix.of_apply,
      Matrix.one_apply]
    rw [← Finset.sum_range (fun i => svd.U.At i k * svd.U.At i k'), hU k k.2 k' k'.2]
    simp [Fin.ext_iff]
  have hVV : Vm * Vm.transpose = 1 := by
    apply (Matrix.mul_eq_one_comm).1
    ext k k'
    simp only [Matrix.mul_apply, Matrix.transpose_apply, Vm, Dense.toMatrix, Matrix.of_apply,
      Matrix.one_apply]
    rw [← Finset.sum_range (fun i => svd.V.At i k * svd.V.At i k'), hV k k.2 k' k'.2]
    simp [Fin.ext_iff]
  have hDD : Dinv * D = 1 := by
    have h1 : (fun k : Fin l => 1 / svd.values.getD k 0 * svd.values.getD k 0)
        = fun _ => (1 : K) := by
      funext k
      have : (0 : K) < svd.values.getD k 0 := lt_trans (by positivity) (htol k k.2)
      exact one_div_mul_cancel this.ne'
    rw [Matrix.diagonal_mul_diagonal, h1, Matrix.diagonal_one]
  have hAm : A.toMatrix n l = Um * D * Vm.transpose := by
    ext i j
    simp only [Dense.toMatrix, Matrix.of_apply, hA i i.2 j j.2, Matrix.mul_apply,
      Matrix.transpose_apply, Um, Vm, D, Matrix.diagonal_apply, Finset.sum_range]
    refine Finset.sum_congr rfl fun k _ => ?_
    simp [Finset.sum_ite_eq]
  have hPA : (Vm * Dinv * Um.transpose) * (A.toMatrix n l) = 1 := by
    rw [hAm]
    calc Vm * Dinv * Um.transpose * (Um * D * Vm.transpose)
        = Vm * Dinv * (Um.transpose * Um) * D * Vm.transpose := by
          simp only [Matrix.mul_assoc]
      _ = Vm * (Dinv * D) * Vm.transpose := by
          rw [hUU, Matrix.mul_one, Matrix.mul_assoc Vm]
      _ = 1 := by rw [hDD, Matrix.mul_one, hVV]
  -- the entries of the pseudo-inverse and of the encoded column
  have hP : ∀ (i : Fin l) (j : Fin n),
      (∑ k in Finset.range l, (∑ k' in Finset.range l, svd.V.At i k' *
          (if k' = k ∧ svd.values.getD k' 0 > 1 / 10 ^ 10 then 1 / svd.values.getD k' 0 else 0))
          * svd.U.At j k) = (Vm * Dinv * Um.transpose) i j := by
    intro i j
    simp only [Matrix.mul_apply, Matrix.transpose_apply, Um, Vm, Dinv, Dense.toMatrix,
      Matrix.of_apply, Matrix.diagonal_apply, Finset.sum_range]
    refine Finset.sum_congr rfl fun k _ => ?_
    congr 1
    refine Finset.sum_congr rfl fun k' _ => ?_
    congr 1
    by_cases h : k' = k
    · subst h
      rw [if_pos ⟨rfl, htol _ k'.2⟩, if_pos rfl]
    · have : ¬ ((k' : Nat) = k) := fun e => h (Fin.ext e)
      rw [if_neg (fun e => this e.1), if_neg h]
  let x : Fin l → K := fun t => X.At t I
  have hy : ∀ j : Fin n,
      (∑ t in Finset.range l, A.At j t * X.At t I) = (A.toMatrix n l).mulVec x j := by
    intro j
    simp only [Matrix.mulVec, Matrix.dotProduct, Dense.toMatrix, Matrix.of_apply, x,
      Finset.sum_range]
  have hmain : ∀ i < l,
      (∑ j in Finset.range n,
        (∑ k in Finset.range l, (∑ k' in Finset.range l, svd.V.At i k' *
          (if k' = k ∧ svd.values.getD k' 0 > 1 / 10 ^ 10 then 1 / svd.values.getD k' 0 else 0))
          * svd.U.At j k) * (∑ t in Finset.range l, A.At j t * X.At t I)) = X.At i I := by
    intro i hi
    rw [Finset.sum_range]
    have e : ∀ j : Fin n, _ = (Vm * Dinv * Um.transpose) ⟨i, hi⟩ j
        * (A.toMatrix n l).mulVec x j := fun j => by rw [← hP ⟨i, hi⟩ j, ← hy j]
    rw [Finset.sum_congr rfl fun j _ => e j]
    have := congrFun (Matrix.mulVec_mulVec x (Vm * Dinv * Um.transpose) (A.toMatrix n l)) ⟨i, hi⟩
    rw [hPA, Matrix.one_mulVec] at this
    simpa [Matrix.mulVec, Matrix.dotProduct] using this
  -- the pipeline
  have hcol : Col I X = some ((List.range l).map fun i => X.At i I) := by
    simp [Col, hI, hX]
  rw [hcol]
  simp only [Pseudoinverse, hF, Dense.Mul, Dense.T, Col, Decode, Option.bind_eq_bind,
    Option.some_bind, hVc, hlen, hUc, hUr, hVr, ← hl, ← hn, hX, ne_eq, not_true_eq_false,
    if_false, if_true, hI, List.length_map, List.length_range]
  congr 1
  apply List.map_congr_left
  intro i hi
  have hi' : i < l := by simpa using hi
  rw [← hmain i hi']
  refine Finset.sum_congr rfl fun j hj => ?_
  rw [getD_map_range _ _ _ _ (by simpa using hj)]

/-- Witness of `decode_full_column_rank`: the `2 × 1` encoding matrix
`(3, 4)ᵀ` with thin SVD `U = (3/5, 4/5)ᵀ`, `σ = 5`, `V = (1)` and the record
`(7)`. -/
theorem decode_full_column_rank_witness :
    ((Pseudoinverse (K := ℚ)
        (fun _ => some ⟨Dense.ofRows [[3 / 5], [4 / 5]], Dense.ofRows [[1]], [5]⟩)
        (Dense.ofRows [[3], [4]])).bind fun P =>
      (Dense.Mul (Dense.ofRows [[3], [4]]) (Dense.ofRows [[7]])).bind fun Y =>
        (Col 0 Y).bind fun y => Decode P y) = Col 0 (Dense.ofRows [[7]]) :=
  decode_full_column_rank
    (fun _ => some ⟨Dense.ofRows [[3 / 5], [4 / 5]], Dense.ofRows [[1]], [5]⟩)
    (Dense.ofRows [[3], [4]]) (Dense.ofRows [[7]])
    ⟨Dense.ofRows [[3 / 5], [4 / 5]], Dense.ofRows [[1]], [5]⟩ 0 rfl
    (by
      simp [IsThinSVD, Dense.ofRows, Finset.sum_range_succ]
      refine ⟨?_, ?_⟩
      · intro i hi
        interval_cases i <;> norm_num
      · norm_num)
    (by simp [Dense.ofRows])
    (by intro k hk; simp [Dense.ofRows] at hk; subst hk; norm_num) rfl
    (by simp [Dense.ofRows])

/-- C10, counterexample. The `1 × 2` encoding matrix `V = [3 4]` has full row
rank, thin SVD `U = [1]`, `σ = [5]`, `V = [3/5, 4/5]ᵀ`; for the database column
`(1, 0)` the encoded column is `(3)` and `Decode(Pseudoinverse(V), (3))` is
`(9/25, 12/25)`, not `(1, 0)`. -/
theorem decode_not_identity_when_wide :
    IsThinSVD (K := ℚ) (Dense.ofRows [[3, 4]])
        ⟨Dense.ofRows [[1]], Dense.ofRows [[3 / 5], [4 / 5]], [5]⟩ ∧
      ((Pseudoinverse (K := ℚ)
          (fun _ => some ⟨Dense.ofRows [[1]], Dense.ofRows [[3 / 5], [4 / 5]], [5]⟩)
          (Dense.ofRows [[3, 4]])).bind fun P =>
        (Dense.Mul (Dense.ofRows [[3, 4]]) (Dense.ofRows [[1], [0]])).bind fun Y =>
          (Col 0 Y).bind fun y => Decode P y) = some [9 / 25, 12 / 25] ∧
      Col (K := ℚ) 0 (Dense.ofRows [[1], [0]]) = some [1, 0] ∧
      ([9 / 25, 12 / 25] : List ℚ) ≠ [1, 0] := by
  refine ⟨?_, ?_, ?_, by norm_num⟩
  · simp [IsThinSVD, Dense.ofRows, Finset.sum_range_succ]
    refine ⟨?_, ?_⟩
    · intro j hj
      interval_cases j <;> norm_num
    · norm_num
  · simp [Pseudoinverse, Dense.Mul, Dense.T, Col, Decode, Dense.ofRows, Finset.sum_range_succ,
      List.range_succ]
    norm_num
  · simp [Col, Dense.ofRows, List.range_succ]

/-! ## Structure and precondition of the query -/

/-- C11. Query structure: for every `a`, `b`, `m`, index `I < m` and blinding
vector `r` (whatever its entries, in particular entries in `[0, 10)`),
`GenQuery` returns `q1` and `q2`, both of length `m`, with `q1[j] = a · r[j]`
for every `j`, `q2[I] = q1[I] + b` and `q2[j] = q1[j]` for every `j ≠ I`. -/
theorem query_structure (a b : Int) (m I : Nat) (r : Nat → Int) (hI : I < m) :
    ∃ q1 q2 : List Int, GenQuery a b m I r = some (q1, q2) ∧
      q1.length = m ∧ q2.length = m ∧
      (∀ j < m, q1[j]? = some (a * r j)) ∧
      (∀ v, q1[I]? = some v → q2[I]? = some (v + b)) ∧
      (∀ j < m, j ≠ I → q2[j]? = q1[j]?) := by
  refine ⟨_, _, GenQuery_eq a b m I r hI, by simp, by simp [unitVec_length], ?_, ?_, ?_⟩
  · intro j hj
    have h := q1_getD a m r j hj
    rw [List.getD_eq_getElem?_getD, List.getElem?_eq_getElem (by simpa using hj)] at h
    rw [List.getElem?_eq_getElem (by simpa using hj)]
    exact congrArg some h
  · intro v hv
    have h1 := q1_getD a m r I hI
    have h2 := q2_getD a b m I r I hI
    rw [List.getD_eq_getElem?_getD, List.getElem?_eq_getElem (by simpa using hI)] at h1
    rw [List.getD_eq_getElem?_getD,
      List.getElem?_eq_getElem (by simpa [unitVec_length] using hI)] at h2
    rw [List.getElem?_eq_getElem (by simpa using hI)] at hv
    rw [List.getElem?_eq_getElem (by simpa [unitVec_length] using hI)]
    simp only [Option.getD_some, if_true, mul_one] at h1 h2
    simp only [Option.some.injEq] at hv ⊢
    rw [h2, ← hv, h1]
  · intro j hj hne
    have h1 := q1_getD a m r j hj
    have h2 := q2_getD a b m I r j hj
    rw [List.getD_eq_getElem?_getD, List.getElem?_eq_getElem (by simpa using hj)] at h1
    rw [List.getD_eq_getElem?_getD,
      List.getElem?_eq_getElem (by simpa [unitVec_length] using hj)] at h2
    rw [List.getElem?_eq_getElem (by simpa [unitVec_length] using hj),
      List.getElem?_eq_getElem (by simpa using hj)]
    simp only [Option.getD_some, if_neg hne, mul_zero, add_zero] at h1 h2
    simp only [Option.some.injEq]
    rw [h2, h1]

/-- Witness of `query_structure`. -/
theorem query_structure_witness :
    ∃ q1 q2 : List Int, GenQuery 3 7 (2 : Nat) (1 : Nat) (fun _ => 4) = some (q1, q2) ∧
      q1.length = 2 ∧ q2.length = 2 ∧
      (∀ j < 2, q1[j]? = some (3 * (fun _ => 4) j)) ∧
      (∀ v, q1[1]? = some v → q2[1]? = some (v + 7)) ∧
      (∀ j < 2, j ≠ 1 → q2[j]? = q1[j]?) :=
  query_structure 3 7 2 1 (fun _ => 4) (by decide)

/-- C12. Query precondition: `GenQuery(a, b, m, i)` fails if and only if the
target index is out of range, that is not `0 ≤ i < m`; for every in-range
index it returns a query pair. -/
theorem GenQuery_fails_iff (a b m i : Int) (r : Nat → Int) :
    (GenQuery a b m i r = none ↔ ¬ (0 ≤ i ∧ i < m)) ∧
      ((0 ≤ i ∧ i < m) → ∃ Q, GenQuery a b m i r = some Q) := by
  unfold GenQuery
  constructor
  · constructor
    · intro h
      split_ifs at h with h1 h2
      · omega
      · omega
    · intro h
      split_ifs with h1 h2
      · rfl
      · rfl
      · exfalso; apply h; omega
  · intro h
    have h1 : ¬ m < 0 := by omega
    have h2 : ¬ (i < 0 ∨ m ≤ i) := by omega
    rw [if_neg h1, if_neg h2]
    exact ⟨_, rfl⟩

/-! ## The partition of `Verify`, fault injection and the sign of the hash -/

/-- C13. `Verify` is an ordered partition: for every response vector `Y` and
commitment vector `H`, both of length `n`, the two lists returned by `Verify`
are strictly ascending and disjoint, together they hold exactly the indices
`0 .. n-1`, an index `i` is in the dishonest list iff
`Gethash(Y[i]) ≠ H[i]`, and the count is the length of the dishonest list. -/
theorem verify_ordered_partition (sha : List Nat → String) (Y : List Int) (H : List String)
    (n : Nat) (hY : Y.length = n) (hH : H.length = n) :
    ∃ (count : Nat) (byz hon : List Nat), Verify sha Y H = some (count, byz, hon) ∧
      byz.Sorted (· < ·) ∧ hon.Sorted (· < ·) ∧ byz.Disjoint hon ∧
      (∀ i, (i ∈ byz ∨ i ∈ hon) ↔ i < n) ∧
      (∀ i < n, i ∈ byz ↔ Gethash sha (Y.getD i 0) ≠ H.getD i "") ∧
      count = byz.length := by
  refine ⟨_, _, _, verifyLoop_eq sha Y H Y.length le_rfl (by omega), ?_, ?_, ?_, ?_, ?_, rfl⟩
  · exact (List.sorted_lt_range _).filter _
  · exact (List.sorted_lt_range _).filter _
  · intro i h1 h2
    simp only [List.mem_filter, Bool.not_eq_true'] at h1 h2
    rw [h1.2] at h2
    exact Bool.noConfusion h2.2
  · intro i
    simp only [List.mem_filter, List.mem_range, Bool.not_eq_true', hY]
    constructor
    · rintro (h | h) <;> exact h.1
    · intro h
      cases hm : mismatch sha Y H i
      · exact Or.inr ⟨h, rfl⟩
      · exact Or.inl ⟨h, rfl⟩
  · intro i hi
    simp only [List.mem_filter, List.mem_range, hY, mismatch, decide_eq_true_eq]
    exact ⟨fun h => h.2, fun h => ⟨hi, h⟩⟩

/-- Witness of `verify_ordered_partition`. -/
theorem verify_ordered_partition_witness :
    ∃ (count : Nat) (byz hon : List Nat),
      Verify (fun _ => "h") [4, 5] ["h", "x"] = some (count, byz, hon) ∧
      byz.Sorted (· < ·) ∧ hon.Sorted (· < ·) ∧ byz.Disjoint hon ∧
      (∀ i, (i ∈ byz ∨ i ∈ hon) ↔ i < 2) ∧
      (∀ i < 2, i ∈ byz ↔
        Gethash (fun _ => "h") (([4, 5] : List Int).getD i 0) ≠ (["h", "x"] : List String).getD i "") ∧
      count = byz.length :=
  verify_ordered_partition (fun _ => "h") [4, 5] ["h", "x"] 2 rfl rfl

/-- C14. Fault injection frame: for every index list `Byzant` and response
vector `Y`, `AddError(Byzant, Y)` has the length of `Y`, holds `-1` at every
position of `0 .. len(Y)-1` that occurs in `Byzant` and the entry of `Y` at
every other position; indices out of range are ignored, and with an empty
index list the responses are returned unchanged. -/
theorem AddError_frame (Byzant : List Int) (Y : List Int) :
    (AddError Byzant Y).length = Y.length ∧
      (∀ i < Y.length, (i : Int) ∈ Byzant → (AddError Byzant Y)[i]? = some (-1)) ∧
      (∀ i < Y.length, (i : Int) ∉ Byzant → (AddError Byzant Y)[i]? = Y[i]?) ∧
      AddError (Byzant.filter fun index => decide (0 ≤ index ∧ index < (Y.length : Int))) Y
        = AddError Byzant Y ∧
      AddError [] Y = Y := by
  have hget : ∀ (B : List Int) (i : Nat), i < Y.length →
      (AddError B Y)[i]? = some (if (i : Int) ∈ B then -1 else Y.getD i 0) := by
    intro B i hi
    have h := AddError_getD B Y i hi
    rw [List.getD_eq_getElem?_getD,
      List.getElem?_eq_getElem (by rw [AddError_length]; exact hi)] at h
    rw [List.getElem?_eq_getElem (by rw [AddError_length]; exact hi)]
    exact congrArg some h
  refine ⟨AddError_length _ _, ?_, ?_, ?_, rfl⟩
  · intro i hi hmem
    rw [hget _ i hi, if_pos hmem]
  · intro i hi hmem
    rw [hget _ i hi, if_neg hmem, List.getD_eq_getElem?_getD, List.getElem?_eq_getElem hi]
    rfl
  · apply List.ext_getElem?
    intro i
    by_cases hi : i < Y.length
    · rw [hget _ i hi, hget _ i hi]
      have : ((i : Int) ∈ Byzant.filter fun index => decide (0 ≤ index ∧ index < (Y.length : Int)))
          ↔ (i : Int) ∈ Byzant := by
        simp only [List.mem_filter, decide_eq_true_eq]
        exact ⟨fun h => h.1, fun h => ⟨h, by omega, by omega⟩⟩
      simp only [this]
    · rw [List.getElem?_eq_none (by rw [AddError_length]; omega),
        List.getElem?_eq_none (by rw [AddError_length]; omega)]

/-- C19. The commitment hash ignores the sign: for every digest function and
every integer `x`, `Gethash(x) = Gethash(-x)`; consequently, when the response
of server `i` is the sentinel `-1` and its commitment is that of the share
value `1`, `Verify` puts server `i` in the honest list and not in the
dishonest list. -/
theorem Gethash_ignores_sign (sha : List Nat → String) (Y : List Int) (H : List String)
    (i : Nat) (hi : i < Y.length) (hH : Y.length ≤ H.length)
    (hy : Y.getD i 0 = -1) (hc : H.getD i "" = Gethash sha 1) :
    (∀ x : Int, Gethash sha x = Gethash sha (-x)) ∧
      ∃ (count : Nat) (byz hon : List Nat), Verify sha Y H = some (count, byz, hon) ∧
        i ∈ hon ∧ i ∉ byz := by
  have hsign : ∀ x : Int, Gethash sha x = Gethash sha (-x) := by
    intro x
    simp [Gethash, Bytes]
  have hm : mismatch sha Y H i = false := by
    simp only [mismatch, hy, hc, decide_eq_false_iff_not, not_not]
    exact (hsign 1).symm
  refine ⟨hsign, _, _, _, verifyLoop_eq sha Y H Y.length le_rfl hH, ?_, ?_⟩
  · simp [List.mem_filter, hi, hm]
  · simp [List.mem_filter, hm]

/-- Witness of `Gethash_ignores_sign`: the response vector `[-1, 5]` against
the commitments of the share column `[1, 5]`. -/
theorem Gethash_ignores_sign_witness :
    (∀ x : Int, Gethash (fun _ => "h") x = Gethash (fun _ => "h") (-x)) ∧
      ∃ (count : Nat) (byz hon : List Nat),
        Verify (fun _ => "h") [-1, 5] (GenHashVec (fun _ => "h") [1, 5])
          = some (count, byz, hon) ∧ 0 ∈ hon ∧ 0 ∉ byz :=
  Gethash_ignores_sign (fun _ => "h") [-1, 5] (GenHashVec (fun _ => "h") [1, 5]) 0
    (by decide) (by simp [GenHashVec]) rfl rfl

/-! ## Division in the combiner -/

/-- C20. Division semantics of the combiner: `CalRespond(b, (a1, a2))` fails if
and only if `b = 0`; for every `b ≠ 0` it returns the Euclidean quotient of
`a2 - a1` by `b`, the unique `q` with `0 ≤ (a2 - a1) - q · b < |b|`. -/
theorem CalRespond_division (b a1 a2 : Int) :
    (CalRespond b (a1, a2) = none ↔ b = 0) ∧
      (b ≠ 0 → ∃ q, CalRespond b (a1, a2) = some q ∧
        0 ≤ (a2 - a1) - q * b ∧ (a2 - a1) - q * b < |b| ∧
        ∀ q', 0 ≤ (a2 - a1) - q' * b → (a2 - a1) - q' * b < |b| → q' = q) := by
  constructor
  · unfold CalRespond
    by_cases hb : b = 0 <;> simp [hb]
  · intro hb
    refine ⟨(a2 - a1) / b, by simp [CalRespond, hb], ?_, ?_, ?_⟩
    · have h1 := Int.emod_nonneg (a2 - a1) hb
      have h2 := Int.emod_def (a2 - a1) b
      rw [mul_comm]
      omega
    · have h1 := Int.emod_lt (a2 - a1) hb
      have h2 := Int.emod_def (a2 - a1) b
      rw [mul_comm]
      omega
    · intro q' h0 h1
      have e : a2 - a1 = ((a2 - a1) - q' * b) + b * q' := by ring
      rw [e, Int.add_mul_ediv_left _ _ hb, Int.ediv_eq_zero_of_lt_abs h0 h1]
      simp

/-! ## Encoding -/

theorem sumLoop_eq (f : Nat → Option Int) (g : Nat → Int) :
    ∀ n, (∀ k < n, f k = some (g k)) → sumLoop f n = some (∑ k in Finset.range n, g k) := by
  intro n
  induction n with
  | zero => intro _; simp [sumLoop]
  | succ n ih =>
    intro h
    simp [sumLoop, ih (fun k hk => h k (Nat.lt_succ_of_lt hk)), h n (Nat.lt_succ_self n),
      Finset.sum_range_succ]

/-- C15. Encoding is the matrix product: for every `n × l` integer matrix `A`
and `l × m` integer matrix `B` with `n ≥ 1` and `l ≥ 1`,
`MatrixMultiplyBigInt(A, B)` is the `n × m` matrix whose entry `(i, j)` is the
sum over `k` of `A[i][k] · B[k][j]`; `DistributeFile` hands its row `i`
unchanged to server `i`. -/
theorem MatrixMultiplyBigInt_spec (A B : List (List Int)) (n l m : Nat)
    (hn : 1 ≤ n) (hl : 1 ≤ l) (hAn : A.length = n) (hA : ∀ row ∈ A, row.length = l)
    (hBl : B.length = l) (hB : ∀ row ∈ B, row.length = m) :
    MatrixMultiplyBigInt A B = some ((List.range n).map fun i => (List.range m).map fun j =>
        ∑ k in Finset.range l, (A.getD i []).getD k 0 * (B.getD k []).getD j 0) ∧
      ∀ Y, MatrixMultiplyBigInt A B = some Y → DistributeFile Y = Y := by
  have hd : ∀ Y : List (List Int), DistributeFile Y = Y := by
    intro Y
    simp [DistributeFile]
  refine ⟨?_, fun Y _ => hd Y⟩
  have h0A : 0 < A.length := by omega
  have h0B : 0 < B.length := by omega
  have hA0 : (A[0]).length = l := hA _ (List.getElem_mem h0A)
  have hB0 : (B[0]).length = m := hB _ (List.getElem_mem h0B)
  unfold MatrixMultiplyBigInt
  simp only [List.getElem?_eq_getElem h0A, List.getElem?_eq_getElem h0B, Option.bind_eq_bind,
    Option.some_bind, hA0, hB0, hAn]
  apply fillLoop_eq
  intro i hi
  apply fillLoop_eq
  intro j hj
  apply sumLoop_eq
  intro k hk
  have hi' : i < A.length := by omega
  have hk' : k < B.length := by omega
  have hAi : (A[i]).length = l := hA _ (List.getElem_mem hi')
  have hBk : (B[k]).length = m := hB _ (List.getElem_mem hk')
  simp [List.getElem?_eq_getElem hi', List.getElem?_eq_getElem hk',
    List.getElem?_eq_getElem (hAi ▸ hk : k < (A[i]).length),
    List.getElem?_eq_getElem (hBk ▸ hj : j < (B[k]).length)]

/-- Witness of `MatrixMultiplyBigInt_spec`. -/
theorem MatrixMultiplyBigInt_spec_witness :
    MatrixMultiplyBigInt [[1, 2], [3, 4]] [[5], [6]]
        = some ((List.range 2).map fun i => (List.range 1).map fun j =>
          ∑ k in Finset.range 2, (([[1, 2], [3, 4]] : List (List Int)).getD i []).getD k 0
            * (([[5], [6]] : List (List Int)).getD k []).getD j 0) ∧
      ∀ Y, MatrixMultiplyBigInt [[1, 2], [3, 4]] [[5], [6]] = some Y → DistributeFile Y = Y :=
  MatrixMultiplyBigInt_spec [[1, 2], [3, 4]] [[5], [6]] 2 2 1 (by decide) (by decide) rfl
    (by simp) rfl (by simp)

/-- With no inner dimension (`A = [[]]`, `B = []`) the product panics on `B[0]`. -/
theorem MatrixMultiplyBigInt_no_inner_dimension :
    MatrixMultiplyBigInt [[]] [] = none := by
  rfl

/-! ## Reconstruction for the leading index set -/

theorem NewDense_natCast {K : Type} [LinearOrderedField K] (r c : Nat) (hr : 0 < r)
    (hc : 0 < c) (data : Nat → Nat → K) :
    NewDense (r : Int) (c : Int) data = some ⟨r, c, data⟩ := by
  have h : ¬ ((r : Int) ≤ 0 ∨ (c : Int) ≤ 0) := by omega
  simp only [NewDense, h, if_false, Int.toNat_ofNat]

theorem NewVecDense_natCast {K : Type} [LinearOrderedField K] (n : Nat) (hn : 0 < n)
    (data : List K) : NewVecDense (n : Int) data = some data := by
  have h : ¬ ((n : Int) ≤ 0) := by omega
  simp only [NewVecDense, h, if_false]

theorem extractRowsLoop_eq {K : Type} [LinearOrderedField K] (S : List K) :
    ∀ rows : List Nat, (∀ r ∈ rows, r < S.length) →
      extractRowsLoop S rows = some (rows.map fun r => S.getD r 0) := by
  intro rows
  induction rows with
  | nil => intro _; rfl
  | cons r rest ih =>
    intro h
    have hr : r < S.length := h r (List.mem_cons_self _ _)
    simp [extractRowsLoop, ih (fun x hx => h x (List.mem_cons_of_mem _ hx)),
      List.getElem?_eq_getElem hr]

theorem extractRowsVec_eq {K : Type} [LinearOrderedField K] (S : List K) (rows : List Nat)
    (hne : 0 < rows.length) (h : ∀ r ∈ rows, r < S.length) :
    extractRowsVec S rows = some (rows.map fun r => S.getD r 0) := by
  rw [extractRowsVec, extractRowsLoop_eq S rows h]
  exact NewVecDense_natCast _ hne _

theorem subtractCol_eq {K : Type} [LinearOrderedField K] (Respond : List K) (h : Nat)
    (col S_I : List K) (hh : h < Respond.length) (hc : S_I.length ≤ col.length) :
    subtractCol Respond h col S_I = some ((List.range S_I.length).map fun i =>
      S_I.getD i 0 - Respond.getD h 0 * col.getD i 0) := by
  unfold subtractCol
  by_cases h0 : S_I.length = 0
  · rw [if_pos h0]
    have : S_I = [] := List.length_eq_zero.1 h0
    subst this
    rfl
  · rw [if_neg h0, List.getElem?_eq_getElem hh]
    simp only [not_lt.2 hc, if_false]
    congr 1
    apply List.ext_getElem
    · simp [hc]
    · intro i h1 h2
      have hi : i < S_I.length := by simpa using h2
      have hi' : i < col.length := lt_of_lt_of_le hi hc
      simp [List.getElem?_eq_getElem hi, List.getElem?_eq_getElem hi',
        List.getElem?_eq_getElem hh]

theorem subtractKnown_eq {K : Type} [LinearOrderedField K] (B_known : Dense K)
    (Respond : List K) :
    ∀ (hs : List Nat) (t0 : Nat) (S_I : List K), (∀ h ∈ hs, h < Respond.length) →
      t0 + hs.length ≤ B_known.cols → S_I.length ≤ B_known.rows →
      subtractKnown B_known Respond t0 hs S_I = some ((List.range S_I.length).map fun i =>
        S_I.getD i 0 - ∑ t in Finset.range hs.length,
          Respond.getD (hs.getD t 0) 0 * B_known.At i (t0 + t)) := by
  intro hs
  induction hs with
  | nil =>
    intro t0 S_I _ _ _
    simp only [subtractKnown, List.length_nil, Finset.range_zero, Finset.sum_empty, sub_zero]
    rw [map_range_getD]
  | cons h rest ih =>
    intro t0 S_I hR hcols hrows
    have hh : h < Respond.length := hR h (List.mem_cons_self _ _)
    have ht0 : t0 < B_known.cols := by simp at hcols; omega
    have hcol : Col t0 B_known = some ((List.range B_known.rows).map fun i => B_known.At i t0) := by
      simp [Col, ht0]
    rw [subtractKnown, hcol]
    simp only [Option.bind_eq_bind, Option.some_bind]
    rw [subtractCol_eq Respond h _ S_I hh (by simpa using hrows)]
    simp only [Option.some_bind]
    rw [ih (t0 + 1) _ (fun x hx => hR x (List.mem_cons_of_mem _ hx))
      (by simp at hcols ⊢; omega) (by simpa using hrows)]
    simp only [List.length_map, List.length_range]
    congr 1
    apply List.map_congr_left
    intro i hi
    have hi' : i < S_I.length := by simpa using hi
    have hi2 : i < B_known.rows := lt_of_lt_of_le hi' hrows
    rw [getD_map_range _ _ _ _ hi', getD_map_range _ _ _ _ hi2, List.length_cons,
      Finset.sum_range_succ']
    simp only [List.getD_cons_succ, List.getD_cons_zero, Nat.add_zero]
    have e : ∀ t, t0 + 1 + t = t0 + (t + 1) := fun t => by omega
    simp only [e]
    ring

theorem cramer_mulVec {K : Type} [LinearOrderedField K] {k : Nat}
    (M : Matrix (Fin k) (Fin k) K) (x : Fin k → K) :
    Matrix.cramer M (M.mulVec x) = M.det • x := by
  rw [Matrix.cramer_eq_adjugate_mulVec, Matrix.mulVec_mulVec, Matrix.adjugate_mul,
    Matrix.smul_mulVec_assoc, Matrix.one_mulVec]

/-- The solver returns the vector `x` whenever the matrix is square and
non-singular and the right-hand side is `A · x`. -/
theorem SolveVec_mulVec {K : Type} [LinearOrderedField K] (A : Dense K) (x b : List K)
    (hsq : A.rows = A.cols) (hx : x.length = A.rows) (hb : b.length = A.rows)
    (hdet : (Matrix.of fun (i j : Fin A.rows) => A.At i j).det ≠ 0)
    (hAx : ∀ i < A.rows, b.getD i 0 = ∑ j in Finset.range A.rows, A.At i j * x.getD j 0) :
    SolveVec A b = some x := by
  unfold SolveVec
  rw [if_neg (by simp [hb]), if_neg (by simp [hsq])]
  simp only [hdet, if_false]
  congr 1
  have hbv : (fun i : Fin A.rows => b.getD i 0)
      = (Matrix.of fun (i j : Fin A.rows) => A.At i j).mulVec (fun j => x.getD j 0) := by
    funext i
    rw [hAx i i.2, Finset.sum_range]
    rfl
  rw [hbv, cramer_mulVec]
  apply List.ext_getElem
  · simp [hx]
  · intro i h1 h2
    simp only [List.getElem_ofFn, Pi.smul_apply, smul_eq_mul]
    rw [← mul_assoc, inv_mul_cancel₀ hdet, one_mul, List.getD_eq_getElem _ _ h2]

/-- C16. Reconstruction in the reference scenario: over an exact field, for
every `n`, every `k` with `0 < k < n`, every check matrix
`B[i][j] = alpha_i^j` with pairwise distinct seeds and every share vector `v`,
when the dishonest set is `D = [0 .. k-1]` and the honest set is `[k .. n-1]`,
`Reconstruct(B, B · v, responses, D, H, k)` with responses equal to `v` on `H`
returns exactly `(v[0], ..., v[k-1])`; `B · v` is computed by the
matrix-vector product of `Decode`. -/
theorem reconstruct_leading_set {K : Type} [LinearOrderedField K] (alpha : Nat → K)
    (n k : Nat) (v responses : List K) (hk : 0 < k) (hkn : k < n)
    (hdist : ∀ i < n, ∀ j < n, alpha i = alpha j → i = j)
    (hv : v.length = n) (hr : responses.length = n)
    (hagree : ∀ h, k ≤ h → h < n → responses[h]? = v[h]?) :
    ((Decode (vandermondeData alpha n n) v).bind fun S =>
      Reconstruct (vandermondeData alpha n n) S responses (List.range k)
        (List.range' k (n - k)) k) = some (v.take k) := by
  have hS : Decode (vandermondeData alpha n n) v = some ((List.range n).map fun i =>
      ∑ j in Finset.range n, alpha i ^ j * v.getD j 0) := by
    simp [Decode, vandermondeData, hv, pow_eq]
  rw [hS]
  have hE : ExtractSubmatrix (vandermondeData alpha n n) (k : Int)
      = some ⟨k, n, fun i j => pow (alpha i) j⟩ := by
    have hgt : ¬ ((k : Int) > ((vandermondeData alpha n n).rows : Int)) := by
      simp only [vandermondeData]
      omega
    rw [ExtractSubmatrix, if_neg hgt]
    exact NewDense_natCast k n hk (by omega) _
  simp only [Option.some_bind, Reconstruct, hE, Option.bind_eq_bind, extractColumns]
  have hall1 : ((List.range k).all fun col => decide (col < n)) = true := by
    rw [List.all_eq_true]
    intro x hx
    have := List.mem_range.1 hx
    exact decide_eq_true (by omega)
  have hall2 : ((List.range' k (n - k)).all fun col => decide (col < n)) = true := by
    rw [List.all_eq_true]
    intro x hx
    obtain ⟨i, hi, rfl⟩ := List.mem_range'.1 hx
    exact decide_eq_true (by omega)
  simp only [hall1, hall2, if_true, Option.some_bind]
  rw [NewDense_natCast k (List.range k).length hk (by simpa using hk),
    NewDense_natCast k (List.range' k (n - k)).length hk (by simp; omega)]
  simp only [Option.some_bind]
  rw [extractRowsVec_eq _ _ (by simpa using hk) (by
    intro r hr'
    have := List.mem_range.1 hr'
    simp only [List.length_map, List.length_range]
    omega)]
  simp only [Option.some_bind]
  rw [subtractKnown_eq _ _ _ _ _ (by
      intro h hh
      obtain ⟨i, hi, rfl⟩ := List.mem_range'.1 hh
      rw [hr]; omega) (by simp) (by simp)]
  simp only [Option.some_bind, List.length_map, List.length_range, List.length_range']
  apply SolveVec_mulVec
  · rfl
  · simp only [List.length_take, List.length_range, hv]; omega
  · simp
  · simp only [List.length_range]
    have e : (Matrix.of fun (i j : Fin k) => pow (alpha i) ((List.range k).getD j 0))
        = Matrix.vandermonde fun i : Fin k => alpha i := by
      ext i j
      simp [Matrix.vandermonde_apply, pow_eq, List.getElem?_eq_getElem]
    rw [e, Matrix.det_vandermonde_ne_zero_iff]
    intro a b hab
    exact Fin.ext (hdist _ (by omega) _ (by omega) hab)
  · intro i hi
    simp only [List.length_range] at hi ⊢
    rw [getD_map_range _ _ _ _ hi, getD_map_range _ _ _ _ hi]
    have hsplit : n = k + (n - k) := by omega
    have hsum : ∑ j in Finset.range n, alpha i ^ j * v.getD j 0
        = ∑ j in Finset.range k, alpha i ^ j * v.getD j 0
          + ∑ t in Finset.range (n - k), alpha i ^ (k + t) * v.getD (k + t) 0 := by
      conv_lhs => rw [hsplit]
      rw [Finset.sum_range_add]
    have hknown : ∑ t in Finset.range (n - k),
        responses.getD ((List.range' k (n - k)).getD t 0) 0
          * pow (alpha i) ((List.range' k (n - k)).getD (0 + t) 0)
        = ∑ t in Finset.range (n - k), alpha i ^ (k + t) * v.getD (k + t) 0 := by
      refine Finset.sum_congr rfl fun t ht => ?_
      have ht' : t < n - k := Finset.mem_range.1 ht
      have hg : (List.range' k (n - k)).getD t 0 = k + t := by
        rw [List.getD_eq_getElem?_getD, List.getElem?_range' _ _ ht']
        simp
      rw [Nat.zero_add, hg, pow_eq, List.getD_eq_getElem?_getD, hagree (k + t) (by omega) (by omega),
        ← List.getD_eq_getElem?_getD]
      ring
    rw [hknown, getD_map_range _ _ _ _ (show i < n by omega), hsum]
    have hleft : ∀ j ∈ Finset.range k,
        pow (alpha i) ((List.range k).getD j 0) * (v.take k).getD j 0
          = alpha i ^ j * v.getD j 0 := by
      intro j hj
      have hj' : j < k := Finset.mem_range.1 hj
      have h1 : (List.range k).getD j 0 = j := by
        rw [List.getD_eq_getElem?_getD, List.getElem?_range hj']
        rfl
      have h2 : (v.take k).getD j 0 = v.getD j 0 := by
        rw [List.getD_eq_getElem?_getD, List.getD_eq_getElem?_getD, List.getElem?_take_of_lt hj']
      rw [h1, h2, pow_eq]
    rw [Finset.sum_congr rfl hleft]
    ring

/-- Witness of `reconstruct_leading_set`: seeds `(1, 2)`, `v = (3, 4)`,
server `0` dishonest. -/
theorem reconstruct_leading_set_witness :
    ((Decode (vandermondeData (fun i => (i : ℚ) + 1) 2 2) [3, 4]).bind fun S =>
      Reconstruct (vandermondeData (fun i => (i : ℚ) + 1) 2 2) S [-1, 4] (List.range 1)
        (List.range' 1 (2 - 1)) 1) = some (([3, 4] : List ℚ).take 1) :=
  reconstruct_leading_set (fun i => (i : ℚ) + 1) 2 1 [3, 4] [-1, 4] (by decide) (by decide)
    (fun i _ j _ h => by simpa using h) rfl rfl
    (fun h h1 h2 => by
      have : h = 1 := by omega
      subst this
      rfl)

/-! ## Construction of the check matrix and row selection -/

/-- For `1 ≤ m ≤ n` the result of `GenerateSubMatrixFullRank` is the matrix
`vandermondeData` of the drawn seeds. -/
theorem GenerateSubMatrixFullRank_eq {K : Type} [LinearOrderedField K] (m n : Int)
    (draws : Nat → Nat) (hm : 0 < m) (hmn : m ≤ n) :
    GenerateSubMatrixFullRank (K := K) m n draws
      = some (vandermondeData (seedOf draws) m.toNat n.toNat) := by
  have h1 : ¬ m > n := by omega
  have h2 : ¬ m < 0 := by omega
  have h3 : ¬ (m ≤ 0 ∨ n ≤ 0) := by omega
  simp only [GenerateSubMatrixFullRank, NewDense, h1, h2, h3, if_false, vandermondeData]

/-- C17, amended. Check-matrix construction and dimension guard:
`GenerateSubMatrixFullRank(m, n)` fails if and only if `m > n` or `m ≤ 0` (the
guard for `m > n`, `make` for a negative `m`, `mat.NewDense` for a zero
dimension); for `1 ≤ m ≤ n` it returns an `m × n` matrix whose entry `(i, j)`
is, over exact arithmetic, the seed `alpha_i` raised to the power `j`, where
over exact arithmetic `pow(base, exp)` is `base ^ exp` for every `exp ≥ 0`, and
`1` for `exp = 0`. -/
theorem GenerateSubMatrixFullRank_fails_iff {K : Type} [LinearOrderedField K] (m n : Int)
    (draws : Nat → Nat) :
    (GenerateSubMatrixFullRank (K := K) m n draws = none ↔ (m > n ∨ m ≤ 0)) ∧
      (0 < m → m ≤ n → ∃ B : Dense K, GenerateSubMatrixFullRank m n draws = some B ∧
        (B.rows : Int) = m ∧ (B.cols : Int) = n ∧
        ∀ i j : Nat, (i : Int) < m → (j : Int) < n → B.At i j = (seedOf draws i) ^ j) ∧
      (∀ (base : K) (exp : Nat), pow base exp = base ^ exp) ∧
      (∀ base : K, pow base 0 = 1) := by
  refine ⟨?_, ?_, pow_eq, fun _ => rfl⟩
  · unfold GenerateSubMatrixFullRank NewDense
    constructor
    · intro h
      split_ifs at h with h1 h2 h3
      · exact Or.inl h1
      · exact Or.inr (by omega)
      · rcases h3 with h3 | h3
        · exact Or.inr h3
        · exact Or.inr (by omega)
    · intro h
      split_ifs with h1 h2 h3
      · rfl
      · rfl
      · rfl
      · exfalso
        omega
  · intro hm hmn
    have h1 : ¬ m > n := by omega
    have h2 : ¬ m < 0 := by omega
    have h3 : ¬ (m ≤ 0 ∨ n ≤ 0) := by omega
    refine ⟨⟨m.toNat, n.toNat, fun i j => pow (seedOf draws i) j⟩, ?_, ?_, ?_, ?_⟩
    · simp only [GenerateSubMatrixFullRank, NewDense, h1, h2, h3, if_false]
    · exact Int.toNat_of_nonneg (by omega)
    · exact Int.toNat_of_nonneg (by omega)
    · intro i j _ _
      exact pow_eq _ _

/-- C17, counterexample. `GenerateSubMatrixFullRank(0, 3)` fails although `0 > 3`
does not hold: `mat.NewDense(0, 3, data)` panics. -/
theorem GenerateSubMatrixFullRank_zero_rows :
    ¬ ((0 : Int) > 3) ∧ GenerateSubMatrixFullRank (K := ℚ) 0 3 (fun _ => 0) = none := by
  constructor
  · decide
  · simp [GenerateSubMatrixFullRank, NewDense]

/-- C18, amended. Row selection: for every `r × c` matrix `M` and every `b`,
`ExtractSubmatrix(M, b)` fails if and only if `b > r` or `b ≤ 0`
(`mat.NewDense` panics on a zero or negative row count); for `1 ≤ b ≤ r` it is
the `b × c` matrix of the first `b` rows of `M` in order, entry `(i, j)` being
`M[i][j]`. -/
theorem ExtractSubmatrix_fails_iff {K : Type} [LinearOrderedField K] (M : Dense K) (b : Int)
    (hc : 0 < M.cols) :
    (ExtractSubmatrix M b = none ↔ (b > M.rows ∨ b ≤ 0)) ∧
      (0 < b → b ≤ M.rows → ∃ S : Dense K, ExtractSubmatrix M b = some S ∧
        (S.rows : Int) = b ∧ S.cols = M.cols ∧
        ∀ i j : Nat, (i : Int) < b → j < M.cols → S.At i j = M.At i j) := by
  have hc' : ¬ ((M.cols : Int) ≤ 0) := by omega
  constructor
  · unfold ExtractSubmatrix NewDense
    constructor
    · intro h
      split_ifs at h with h1 h2
      · exact Or.inl h1
      · rcases h2 with h2 | h2
        · exact Or.inr h2
        · exact absurd h2 hc'
    · intro h
      split_ifs with h1 h2
      · rfl
      · rfl
      · exfalso
        omega
  · intro hb hbr
    have h1 : ¬ b > M.rows := by omega
    have h2 : ¬ (b ≤ 0 ∨ (M.cols : Int) ≤ 0) := by omega
    refine ⟨⟨b.toNat, M.cols, fun i j => M.At i j⟩, ?_, ?_, rfl, fun _ _ _ _ => rfl⟩
    · simp only [ExtractSubmatrix, NewDense, h1, h2, if_false, Int.toNat_ofNat]
    · exact Int.toNat_of_nonneg (by omega)

/-- Witness of `ExtractSubmatrix_fails_iff`: the first row of a `2 × 2` matrix. -/
theorem ExtractSubmatrix_fails_iff_witness :
    (ExtractSubmatrix (K := ℚ) (Dense.ofRows [[1, 2], [3, 4]]) 1 = none ↔
        ((1 : Int) > (Dense.ofRows (K := ℚ) [[1, 2], [3, 4]]).rows ∨ (1 : Int) ≤ 0)) ∧
      ((0 : Int) < 1 → (1 : Int) ≤ (Dense.ofRows (K := ℚ) [[1, 2], [3, 4]]).rows →
        ∃ S : Dense ℚ, ExtractSubmatrix (Dense.ofRows [[1, 2], [3, 4]]) 1 = some S ∧
          (S.rows : Int) = 1 ∧ S.cols = (Dense.ofRows (K := ℚ) [[1, 2], [3, 4]]).cols ∧
          ∀ i j : Nat, (i : Int) < 1 → j < (Dense.ofRows (K := ℚ) [[1, 2], [3, 4]]).cols →
            S.At i j = (Dense.ofRows (K := ℚ) [[1, 2], [3, 4]]).At i j) :=
  ExtractSubmatrix_fails_iff (Dense.ofRows [[1, 2], [3, 4]]) 1 (by simp [Dense.ofRows])

/-- C18, counterexample. For a `2 × 2` matrix and `b = 0`, inside `0 ≤ b ≤ r`,
`ExtractSubmatrix` fails although `b > r` does not hold:
`mat.NewDense(0, 2, nil)` panics. -/
theorem ExtractSubmatrix_zero_rows :
    ¬ ((0 : Int) > 2) ∧
      ExtractSubmatrix (K := ℚ) (Dense.ofRows [[1, 2], [3, 4]]) 0 = none := by
  constructor
  · decide
  · simp [ExtractSubmatrix, NewDense, Dense.ofRows]

end ByzantPIR
